import Mathlib

set_option maxRecDepth 16384

/-!
# Verification of the bigflow workflow engine (`bigflow/workflow.py`)

This file gives a shallow embedding in Lean 4 of the job-graph model and the
execution engine of `bigflow/workflow.py`, and proves (or refutes) the frozen
claims about it.

Conventions of the embedding:

* `WorkflowJob` objects compare and hash purely by their `name`, so a job graph
  is faithfully represented as an association list from names to lists of
  names.  Names are coded as natural numbers (`ℕ`); only equality of names is
  ever used by the Python code, so this renaming is transparent.
* Python `dict` / `OrderedDict` values are association lists
  (`List (ℕ × List ℕ)`) with insertion order preserved; `dict[k]` is first-match
  lookup (`alookup`); dictionaries built by Python can never hold a duplicated
  key, which appears as a `Nodup` hypothesis where it matters.
* The recursive procedures (`_validate_job`, `_fill_parental_map`,
  `_call_on_graph_node_helper`) are embedded with an explicit fuel parameter;
  running out of fuel is an observable outcome (`VRes.nofuel` / `Option.none`),
  and sufficiency of the fuel supplied by the top-level entry points is proved,
  so the embedded functions are total exactly where the Python recursions are.
* `datetime` values are naturals counting microseconds since 0001-01-01
  00:00:00 (the minimum of Python's proleptic-Gregorian `datetime`); raising an
  exception is an `Except`/`Option` result.
-/

namespace Bigflow

/-! ## Association lists (Python `dict` with insertion order) -/

/-- A job graph / parental map: insertion-ordered mapping from a job name to a
list of job names.  This is the shape of `Definition.job_graph` and
`JobOrderResolver.parental_map`. -/
abbrev Graph := List (ℕ × List ℕ)

/-- `dict.get k`: value of the first entry whose key is `k` (`None` if absent). -/
def alookup (g : Graph) (j : ℕ) : Option (List ℕ) :=
  (g.find? (fun e => e.1 = j)).map Prod.snd

/-- `dict[k]` where the key is known to be present; defaults to `[]`. -/
def aval (g : Graph) (j : ℕ) : List ℕ :=
  (alookup g j).getD []

/-- The keys of the dictionary, in insertion order. -/
def gkeys (g : Graph) : List ℕ := g.map Prod.fst

/-- `x ∈ aval g a` iff the dict `g` maps `a` to a list containing `x`:
the edge `a → x` of the job graph (`a` lists `x` as a dependency target). -/
def edgeRel (g : Graph) (a b : ℕ) : Prop := b ∈ aval g a

/-- A graph is acyclic when no node lies on a (nonempty) cycle of edges. -/
def Acyclic (g : Graph) : Prop := ∀ n, ¬ Relation.TransGen (edgeRel g) n n

/-! ## `JobGraphValidator` -/

/-- Outcome of `JobGraphValidator._validate_job`: normal return carrying the
`visited` set, the `InvalidJobGraph` exception naming the offending job, or
exhaustion of the recursion fuel (proved unreachable for the fuel used by
`validateGraph`). -/
inductive VRes where
  | ok (visited : List ℕ)
  | cyclic (j : ℕ)
  | nofuel
  deriving DecidableEq, Repr

/-- The `for dep in self.job_graph[job]` loop inside `_validate_job`;
`f` is the recursive call at one less fuel. -/
def validateDeps (f : ℕ → List ℕ → List ℕ → VRes) : List ℕ → List ℕ → List ℕ → VRes
  | [], v, _ => .ok v
  | d :: ds, v, stk =>
    match f d v stk with
    | .ok v' => validateDeps f ds v' stk
    | r => r

/-- `JobGraphValidator._validate_job(job, visited, stack)`.  The Python code
mutates one `visited` set and one `stack` set; the bracketed
`stack.add(job) … stack.remove(job)` discipline is modelled by passing the
extended stack down to the recursive calls. -/
def validateJob (g : Graph) : ℕ → ℕ → List ℕ → List ℕ → VRes
  | 0, _, _, _ => .nofuel
  | fuel + 1, j, v, stk =>
    if j ∈ stk then .cyclic j
    else if j ∈ v then .ok v
    else
      match alookup g j with
      | none => .ok (j :: v)
      | some deps => validateDeps (validateJob g fuel) deps (j :: v) (j :: stk)

/-- The `for job in self.job_graph` loop of `_validate_if_not_cyclic`
(the stack is empty at the start of every top-level iteration). -/
def validateAll (g : Graph) : ℕ → List ℕ → List ℕ → VRes
  | _, [], v => .ok v
  | fuel, k :: ks, v =>
    match validateJob g fuel k v [] with
    | .ok v' => validateAll g fuel ks v'
    | r => r

/-- `JobGraphValidator.validate()`. -/
def validateGraph (g : Graph) : VRes :=
  validateAll g (g.length + 2) (gkeys g) []

/-! ## `JobOrderResolver._build_parental_map` -/

/-- `if key not in d: d[key] = []` on an ordered dict: append an empty entry
unless the key is already present. -/
def pmAddKey (pm : Graph) (j : ℕ) : Graph :=
  if (alookup pm j).isSome then pm else pm ++ [(j, [])]

/-- `d[t].append(j)`: append `j` to the value list of the first entry with key
`t` (a no-op when the key is absent; every call site establishes presence
first, mirroring Python where absence would be a `KeyError`). -/
def pmAppend : Graph → ℕ → ℕ → Graph
  | [], _, _ => []
  | (k, l) :: rest, t, j =>
    if k = t then (k, l ++ [j]) :: rest else (k, l) :: pmAppend rest t j

/-- The `for dependency in self.job_graph[job]` loop inside
`_fill_parental_map`; `f` is the recursive call at one less fuel, `j` the
job whose dependencies are being walked. -/
def fillDeps (f : ℕ → Graph × List ℕ → Option (Graph × List ℕ)) (j : ℕ) :
    List ℕ → Graph × List ℕ → Option (Graph × List ℕ)
  | [], st => some st
  | d :: ds, (pm, v) =>
    match f d (pmAppend (pmAddKey pm d) d j, v) with
    | some st => fillDeps f j ds st
    | none => none

/-- `JobOrderResolver._fill_parental_map(job, parental_map, visited)`. -/
def fillPM (g : Graph) : ℕ → ℕ → Graph × List ℕ → Option (Graph × List ℕ)
  | 0, _, _ => none
  | fuel + 1, j, (pm, v) =>
    match alookup g j with
    | none => some (pm, v)           -- `job not in self.job_graph`
    | some deps =>
      if j ∈ v then some (pm, v)
      else fillDeps (fillPM g fuel) j deps (pmAddKey pm j, j :: v)

/-- The `for job in self.job_graph` loop of `_build_parental_map`. -/
def fillAll (g : Graph) : ℕ → List ℕ → Graph × List ℕ → Option (Graph × List ℕ)
  | _, [], st => some st
  | fuel, k :: ks, st => (fillPM g fuel k st).bind (fillAll g fuel ks)

/-- `JobOrderResolver._build_parental_map()`. -/
def buildParentalMap (g : Graph) : Option Graph :=
  (fillAll g (g.length + 2) (gkeys g) ([], [])).map Prod.fst

/-! ## `JobOrderResolver.call_on_graph_nodes` and the sequential order

The traversal is embedded so that its result is the list of nodes, in order,
on which the consumer is invoked; the consumer receives the pair
`(job, parental_map[job])`, which is a function of the node, so this list
determines every consumer call.  `find_sequential_run_order` appends each node
to an output list, i.e. returns exactly this list. -/

/-- The `for parent in parental_map[job]` loop of the helper; `f` is the
recursive call at one less fuel. -/
def visitParents (f : ℕ → List ℕ × List ℕ → Option (List ℕ × List ℕ)) :
    List ℕ → List ℕ × List ℕ → Option (List ℕ × List ℕ)
  | [], st => some st
  | p :: ps, st => (f p st).bind (visitParents f ps)

/-- `JobOrderResolver._call_on_graph_node_helper(job, parental_map, visited,
consumer)`.  State: the `visited` set and the list of consumer calls so far.
`none` signals fuel exhaustion or a `KeyError` on `parental_map[job]` (both
proved unreachable from `callOnGraphNodes`). -/
def visitNode (pm : Graph) : ℕ → ℕ → List ℕ × List ℕ → Option (List ℕ × List ℕ)
  | 0, _, _ => none
  | fuel + 1, j, (v, out) =>
    if j ∈ v then some (v, out)
    else
      match alookup pm j with
      | none => none               -- KeyError: `parental_map[job]`
      | some ps =>
        (visitParents (visitNode pm fuel) ps (j :: v, out)).map fun st =>
          (st.1, st.2 ++ [j])

/-- The `for job in self.parental_map` loop of `call_on_graph_nodes`. -/
def visitAll (pm : Graph) : ℕ → List ℕ → List ℕ × List ℕ → Option (List ℕ × List ℕ)
  | _, [], st => some st
  | fuel, k :: ks, st => (visitNode pm fuel k st).bind (visitAll pm fuel ks)

/-- `JobOrderResolver.call_on_graph_nodes(consumer)`: the sequence of nodes the
consumer is invoked on (each paired, at the call site, with its parent list). -/
def callOnGraphNodes (pm : Graph) : Option (List ℕ) :=
  (visitAll pm (pm.length + 1) (gkeys pm) ([], [])).map Prod.snd

/-- `JobOrderResolver.find_sequential_run_order()` composed with the
construction of the resolver (`__init__` builds the parental map). -/
def findSeqOrder (g : Graph) : Option (List ℕ) :=
  (buildParentalMap g).bind callOnGraphNodes

/-! ## `Definition._convert_list_to_graph` -/

/-- `d[k] = val` on an ordered dict: overwrite in place, or append. -/
def dictSet (d : Graph) (k : ℕ) (val : List ℕ) : Graph :=
  if (alookup d k).isSome then go d else d ++ [(k, val)]
where
  go : Graph → Graph
    | [] => []
    | (k', l) :: rest => if k' = k then (k, val) :: rest else (k', l) :: go rest

/-- `Definition._convert_list_to_graph(job_list)`: a single-element list maps
its element to `[]`; otherwise `graph[job_list[i-1]] = [job_list[i]]` for
`i = 1 .. len-1` (the pairs `(job_list[i-1], job_list[i])` are exactly
`job_list.zip job_list.tail`). -/
def convertListToGraph : List ℕ → Graph
  | [x] => [(x, [])]
  | js => (js.zip js.tail).foldl (fun acc p => dictSet acc p.1 [p.2]) []

/-! ## `datetime` model

A naive `datetime` is a natural number of microseconds since
0001-01-01 00:00:00, the smallest Python `datetime`.  Civil (year, month, day)
conversions use the standard proleptic-Gregorian algorithms; they agree with
`datetime.toordinal` (which numbers 0001-01-01 as day 1, our day 0). -/

/-- Microseconds per second / day. -/
def usPerSec : ℕ := 1000000

def usPerDay : ℕ := 86400000000

def isLeapYear (y : ℕ) : Bool := (y % 4 = 0 && y % 100 ≠ 0) || y % 400 = 0

def daysInMonth (y m : ℕ) : ℕ :=
  if m = 2 then (if isLeapYear y then 29 else 28)
  else if m = 4 ∨ m = 6 ∨ m = 9 ∨ m = 11 then 30
  else 31

/-- Days from 0001-01-01 to the civil date `y-m-d` (valid dates only). -/
def daysFromCivil (y m d : ℕ) : ℕ :=
  let y' := if m ≤ 2 then y - 1 else y
  let era := y' / 400
  let yoe := y' % 400
  let mp := if m ≤ 2 then m + 9 else m - 3
  let doy := (153 * mp + 2) / 5 + d - 1
  let doe := yoe * 365 + yoe / 4 - yoe / 100 + doy
  era * 146097 + doe - 306

/-- Civil date of day number `days` (days since 0001-01-01). -/
def civilFromDays (days : ℕ) : ℕ × ℕ × ℕ :=
  let z := days + 306
  let era := z / 146097
  let doe := z % 146097
  let yoe := (doe - doe / 1460 + doe / 36524 - doe / 146096) / 365
  let y := yoe + era * 400
  let doy := doe - (365 * yoe + yoe / 4 - yoe / 100)
  let mp := (5 * doy + 2) / 153
  let d := doy - (153 * mp + 2) / 5 + 1
  let m := if mp < 10 then mp + 3 else mp - 9
  (if m ≤ 2 then y + 1 else y, m, d)

/-- The microsecond timestamp of `datetime(y, m, d, hh, mm, ss)`. -/
def dtOfCivil (y m d hh mm ss : ℕ) : ℕ :=
  ((daysFromCivil y m d) * 86400 + hh * 3600 + mm * 60 + ss) * usPerSec

/-- Zero-padded two-digit decimal rendering. -/
def pad2 (n : ℕ) : String :=
  if n < 10 then "0" ++ toString n else toString n

/-- `t.strftime("%Y-%m-%d %H:%M:%S")`, the first entry of
`Workflow.RUNTIME_FORMATS` (glibc renders `%Y` without padding). -/
def strftimeFmt1 (t : ℕ) : String :=
  let secs := t / usPerSec
  let days := secs / 86400
  let rem := secs % 86400
  let c := civilFromDays days
  toString c.1 ++ "-" ++ pad2 c.2.1 ++ "-" ++ pad2 c.2.2 ++ " " ++
    pad2 (rem / 3600) ++ ":" ++ pad2 (rem % 3600 / 60) ++ ":" ++ pad2 (rem % 60)

/-! ### `datetime.strptime` for the two formats of `Workflow.RUNTIME_FORMATS`

CPython's `_strptime` compiles each directive to a regex —
`%Y ↦ \d\d\d\d`, `%m ↦ 1[0-2]|0[1-9]|[1-9]`, `%d ↦ 3[01]|[12]\d|0[1-9]|[1-9]`,
`%H ↦ 2[0-3]|[0-1]\d|\d`, `%M ↦ [0-5]\d|\d`, `%S ↦ 6[0-1]|[0-5]\d|\d` —
requires the whole string to be consumed, and then builds the `datetime`,
which validates the day against the month length, `second ≤ 59` and
`year ≥ 1`, raising `ValueError` otherwise (caught by `_parse_runtime_str`).
Every numeric field here is followed by a non-digit separator (or the end of
the string), so the regex alternation is equivalent to: take two digits when
they form an admissible two-digit value, else one admissible digit. -/

/-- The numeric value of a digit character. -/
def digit? (c : Char) : Option ℕ :=
  if c.isDigit then some (c.toNat - 48) else none

/-- `%Y`: exactly four digits. -/
def parseYear : List Char → Option (ℕ × List Char)
  | a :: b :: c :: d :: r => do
    let x ← digit? a; let y ← digit? b; let z ← digit? c; let w ← digit? d
    some (((x * 10 + y) * 10 + z) * 10 + w, r)
  | _ => none

/-- A one-or-two-digit field: two digits if `ok2` admits their value,
otherwise one digit if `ok1` admits it. -/
def parse21 (ok2 ok1 : ℕ → Bool) : List Char → Option (ℕ × List Char)
  | a :: b :: r =>
    match digit? a, digit? b with
    | some x, some y =>
      if ok2 (10 * x + y) then some (10 * x + y, r)
      else if ok1 x then some (x, b :: r) else none
    | some x, none => if ok1 x then some (x, b :: r) else none
    | none, _ => none
  | [a] => (digit? a).bind fun x => if ok1 x then some (x, []) else none
  | [] => none

/-- A literal character of the format. -/
def parseLit (c : Char) : List Char → Option (List Char)
  | a :: r => if a = c then some r else none
  | [] => none

def parseMonth := parse21 (fun v => 1 ≤ v && v ≤ 12) (fun v => 1 ≤ v)
def parseDay := parse21 (fun v => 1 ≤ v && v ≤ 31) (fun v => 1 ≤ v)
def parseHour := parse21 (fun v => v ≤ 23) (fun _ => true)
def parseMin := parse21 (fun v => v ≤ 59) (fun _ => true)
def parseSec := parse21 (fun v => v ≤ 61) (fun _ => true)

/-- The `datetime(...)` constructor validation applied after a regex match. -/
def validDate (y m d : ℕ) : Bool :=
  1 ≤ y && 1 ≤ d && d ≤ daysInMonth y m

/-- `datetime.strptime(s, "%Y-%m-%d %H:%M:%S")` as `some` timestamp, `none`
on any `ValueError`. -/
def strptimeFmt1 (s : String) : Option ℕ := do
  let (y, r) ← parseYear s.toList
  let r ← parseLit '-' r
  let (m, r) ← parseMonth r
  let r ← parseLit '-' r
  let (d, r) ← parseDay r
  let r ← parseLit ' ' r
  let (hh, r) ← parseHour r
  let r ← parseLit ':' r
  let (mm, r) ← parseMin r
  let r ← parseLit ':' r
  let (ss, r) ← parseSec r
  if r = [] && validDate y m d && ss ≤ 59 then
    some (dtOfCivil y m d hh mm ss)
  else none

/-- `datetime.strptime(s, "%Y-%m-%d")`. -/
def strptimeFmt2 (s : String) : Option ℕ := do
  let (y, r) ← parseYear s.toList
  let r ← parseLit '-' r
  let (m, r) ← parseMonth r
  let r ← parseLit '-' r
  let (d, r) ← parseDay r
  if r = [] && validDate y m d then
    some (dtOfCivil y m d 0 0 0)
  else none

/-! ## `Workflow`, `JobContext` and the run loop -/

/-- A raised Python exception, as relevant here. -/
inductive PyErr where
  | valueError (msg : String)
  /-- `NameError: name '…' is not defined` — evaluating an unbound name. -/
  | nameError (name : String)
  | exception (msg : String)
  deriving DecidableEq, Repr

/-- `JobContext`.  The `workflow` back-reference is represented by the owning
workflow's `workflow_id` (the reference itself is only stored, never
consumed, by the code under verification). -/
structure JobContext where
  runtime : ℕ
  runtimeAsStr : String
  workflowId : String
  deriving DecidableEq, Repr

/-- A job as consumed by `Workflow._execute_job`: an `id` and, unless it is a
legacy job (`hasattr(job, 'execute')` false), an `execute` operation which may
raise. -/
structure PyJob where
  id : String
  execute? : Option (JobContext → Except PyErr Unit)

/-- A `Workflow` over jobs named by naturals: `definition.job_graph` plus the
assignment of the wrapped job to each `WorkflowJob` name. -/
structure Workflow where
  workflowId : String
  jobGraph : Graph
  jobs : ℕ → PyJob

/-- `Workflow._parse_runtime_str(runtime)`: try the two formats in order; on
total failure the code executes `raise ValueError("..." % rt)` where the name
`rt` is unbound, so what is actually raised is a `NameError`. -/
def parseRuntimeStr (s : String) : Except PyErr ℕ :=
  match strptimeFmt1 s with
  | some t => .ok t
  | none =>
    match strptimeFmt2 s with
    | some t => .ok t
    | none => .error (.nameError "rt")

/-- The `runtime` argument of `run` / `run_job`: `None`, a string, or a
`datetime`. -/
inductive RuntimeRaw where
  | noneArg
  | strArg (s : String)
  | dtArg (t : ℕ)

/-- `Workflow._make_job_context(runtime_raw)`; `now` is the value
`dt.datetime.now()` would produce (the one impure input, made explicit). -/
def makeJobContext (wid : String) (now : ℕ) (raw : RuntimeRaw) : Except PyErr JobContext :=
  match raw with
  | .strArg s => (parseRuntimeStr s).map fun t => ⟨t, s, wid⟩
  | .dtArg t => .ok ⟨t, strftimeFmt1 t, wid⟩
  | .noneArg => .ok ⟨now, strftimeFmt1 now, wid⟩

/-- `Workflow._execute_job(job, context)`: call `job.execute(context)`, or for
a legacy job raise `Exception("XXX")` (the old-API fallback is dead code). -/
def executeJob (job : PyJob) (ctx : JobContext) : Except PyErr Unit :=
  match job.execute? with
  | some f => f ctx
  | none => .error (.exception "XXX")

/-- `build_sequential_order()`; total by `findSeqOrder_isSome` below. -/
def buildSequentialOrder (w : Workflow) : List ℕ :=
  (findSeqOrder w.jobGraph).getD []

/-- The `for job in self.build_sequential_order()` loop of `Workflow.run`:
returns the executions performed, each as `(name, context)`, and the exception
that aborted the loop, if any. -/
def runLoop (w : Workflow) (ctx : JobContext) :
    List ℕ → List (ℕ × JobContext) × Option PyErr
  | [] => ([], none)
  | n :: rest =>
    match executeJob (w.jobs n) ctx with
    | .ok _ => let r := runLoop w ctx rest; ((n, ctx) :: r.1, r.2)
    | .error e => ([(n, ctx)], some e)

/-- `Workflow.run(runtime)`: build one context, then execute the sequential
order with it.  Result: the executions performed and the propagated
exception, if any. -/
def runWorkflow (w : Workflow) (now : ℕ) (raw : RuntimeRaw) :
    List (ℕ × JobContext) × Option PyErr :=
  match makeJobContext w.workflowId now raw with
  | .error e => ([], some e)
  | .ok ctx => runLoop w ctx (buildSequentialOrder w)

/-- `Workflow.find_job(job_id)`: the first job in sequential order whose
wrapped job's `id` matches. -/
def findJob (w : Workflow) (jobId : String) : Except PyErr PyJob :=
  match (buildSequentialOrder w).find? (fun n => (w.jobs n).id = jobId) with
  | some n => .ok (w.jobs n)
  | none => .error (.valueError ("Job " ++ jobId ++ " not found."))

/-- `Workflow.run_job(job_id, runtime)`.  Result as for `runWorkflow`; the
single execution (if any) is reported by the name found. -/
def runJob (w : Workflow) (now : ℕ) (jobId : String) (raw : RuntimeRaw) :
    List (ℕ × JobContext) × Option PyErr :=
  match makeJobContext w.workflowId now raw with
  | .error e => ([], some e)
  | .ok ctx =>
    match (buildSequentialOrder w).find? (fun n => (w.jobs n).id = jobId) with
    | none => ([], some (.valueError ("Job " ++ jobId ++ " not found.")))
    | some n =>
      match executeJob (w.jobs n) ctx with
      | .ok _ => ([(n, ctx)], none)
      | .error e => ([(n, ctx)], some e)

/-! ## Start-time helpers -/

/- `get_timezone_offset_seconds()` is
`dt.datetime.now().astimezone().tzinfo.utcoffset(None).seconds` — an impure
read of the local timezone, passed in here as the parameter `tzOffSec`
(a `timedelta.seconds` value, hence `0 ≤ tzOffSec < 86400`). -/

/-- `hourly_start_time(start_time)`: `start_time.replace(microsecond=0)`
(truncation to the whole second) minus `timedelta(seconds=tzOffSec)`. -/
def hourly_start_time (tzOffSec t : ℕ) : ℕ :=
  (t - t % usPerSec) - tzOffSec * usPerSec

/-- `daily_start_time(start_time)`:
`start_time.replace(hour=0, minute=0, second=0, microsecond=0)` (truncation to
the day boundary) minus `timedelta(hours=24)`.  It does not consult the
timezone offset. -/
def daily_start_time (t : ℕ) : ℕ :=
  (t - t % usPerDay) - usPerDay

/-- What claim C9 says `hourly_start_time` computes (truncation to the *hour*
boundary minus the UTC offset) — stated from the claim's words, for
comparison with the code's `hourly_start_time`. -/
def hourly_start_time_claimed (tzOffSec t : ℕ) : ℕ :=
  (t - t % 3600000000) - tzOffSec * usPerSec

/-- What claim C9 says `daily_start_time` computes (truncation to the day
boundary minus the UTC offset) — stated from the claim's words. -/
def daily_start_time_claimed (tzOffSec t : ℕ) : ℕ :=
  (t - t % usPerDay) - tzOffSec * usPerSec

/-- The exception component of an execution result. -/
def errOf : Except PyErr Unit → Option PyErr
  | .ok _ => none
  | .error e => some e

/-! ## Lemmas about the run loop -/

theorem runLoop_all_ok (w : Workflow) (ctx : JobContext) :
    ∀ l : List ℕ, (∀ n ∈ l, executeJob (w.jobs n) ctx = .ok ()) →
      runLoop w ctx l = (l.map fun n => (n, ctx), none) := by
  intro l
  induction l with
  | nil => intro _; rfl
  | cons n rest ih =>
    intro h
    have hn := h n (List.mem_cons_self n rest)
    have hrest := ih fun m hm => h m (List.mem_cons_of_mem n hm)
    simp [runLoop, hn, hrest]

theorem runLoop_fail (w : Workflow) (ctx : JobContext) (n : ℕ) (post : List ℕ)
    (e : PyErr) (he : executeJob (w.jobs n) ctx = .error e) :
    ∀ pre : List ℕ, (∀ m ∈ pre, executeJob (w.jobs m) ctx = .ok ()) →
      runLoop w ctx (pre ++ n :: post) =
        ((pre ++ [n]).map fun m => (m, ctx), some e) := by
  intro pre
  induction pre with
  | nil => intro _; simp [runLoop, he]
  | cons m rest ih =>
    intro h
    have hm := h m (List.mem_cons_self m rest)
    have hrest := ih fun m' hm' => h m' (List.mem_cons_of_mem m hm')
    simp [runLoop, hm, hrest]

theorem find?_of_decomp {α : Type} (p : α → Bool) :
    ∀ (pre : List α) (n : α) (post : List α), (∀ m ∈ pre, ¬ p m) → p n →
      (pre ++ n :: post).find? p = some n := by
  intro pre
  induction pre with
  | nil => intro n post _ hn; simp [List.find?, hn]
  | cons m rest ih =>
    intro n post h hn
    have hm := h m (List.mem_cons_self m rest)
    simp only [List.cons_append, List.find?]
    rw [Bool.eq_false_iff.mpr hm]
    exact ih n post (fun m' hm' => h m' (List.mem_cons_of_mem m hm')) hn

/-! ## Claim theorems C4–C9 -/

/-- **C4.** For every workflow and every runtime argument, `run` builds exactly
one `JobContext` and executes every job of the sequential order, in that
order, passing the same single context to each job's `execute` call: whenever
the context construction succeeds and no job raises, the executions performed
by `run` are exactly the sequential order, each paired with the one context
built from the runtime argument. -/
theorem C4_run_executes_all_in_order_one_context
    (w : Workflow) (now : ℕ) (raw : RuntimeRaw) (ctx : JobContext)
    (hctx : makeJobContext w.workflowId now raw = .ok ctx)
    (hok : ∀ n ∈ buildSequentialOrder w, executeJob (w.jobs n) ctx = .ok ()) :
    runWorkflow w now raw = ((buildSequentialOrder w).map fun n => (n, ctx), none) := by
  unfold runWorkflow
  rw [hctx]
  exact runLoop_all_ok w ctx _ hok

/-- Witness for C4: a three-job workflow over the chain graph of `[0,1,2]`,
run with `runtime=None`; all three jobs execute with the single context. -/
theorem C4_witness :
    runWorkflow
      ⟨"w", convertListToGraph [0, 1, 2],
        fun _ => ⟨"a", some fun _ => .ok ()⟩⟩ 0 .noneArg =
      ([(0, ⟨0, "1-01-01 00:00:00", "w"⟩), (1, ⟨0, "1-01-01 00:00:00", "w"⟩),
        (2, ⟨0, "1-01-01 00:00:00", "w"⟩)], none) := by
  have := C4_run_executes_all_in_order_one_context
    ⟨"w", convertListToGraph [0, 1, 2], fun _ => ⟨"a", some fun _ => .ok ()⟩⟩
    0 .noneArg ⟨0, "1-01-01 00:00:00", "w"⟩ rfl (by intro n _; rfl)
  rw [this]
  rfl

/-- **C5.** If a job's `execute` raises, `run` propagates that exception
unchanged to the caller, with no retry or suppression, and executes none of
the jobs following the failing job in the sequential order: the executions
performed are exactly the preceding (successful) jobs and the failing one. -/
theorem C5_run_propagates_failure_and_stops
    (w : Workflow) (now : ℕ) (raw : RuntimeRaw) (ctx : JobContext)
    (pre post : List ℕ) (n : ℕ) (e : PyErr)
    (hctx : makeJobContext w.workflowId now raw = .ok ctx)
    (horder : buildSequentialOrder w = pre ++ n :: post)
    (hpre : ∀ m ∈ pre, executeJob (w.jobs m) ctx = .ok ())
    (hfail : executeJob (w.jobs n) ctx = .error e) :
    runWorkflow w now raw = ((pre ++ [n]).map fun m => (m, ctx), some e) := by
  unfold runWorkflow
  rw [hctx, horder]
  exact runLoop_fail w ctx n post e hfail pre hpre

/-- Witness for C5: in the chain `[0,1,2]`, job `1` raises; `run` performs
exactly the executions of jobs `0` and `1` and propagates the exception. -/
theorem C5_witness :
    runWorkflow
      ⟨"w", convertListToGraph [0, 1, 2],
        fun n => ⟨"a", some fun _ =>
          if n = 1 then .error (.exception "boom") else .ok ()⟩⟩ 0 .noneArg =
      ([(0, ⟨0, "1-01-01 00:00:00", "w"⟩), (1, ⟨0, "1-01-01 00:00:00", "w"⟩)],
        some (.exception "boom")) := by
  have := C5_run_propagates_failure_and_stops
    ⟨"w", convertListToGraph [0, 1, 2],
      fun n => ⟨"a", some fun _ =>
        if n = 1 then .error (.exception "boom") else .ok ()⟩⟩
    0 .noneArg ⟨0, "1-01-01 00:00:00", "w"⟩ [0] [2] 1 (.exception "boom")
    rfl rfl (by intro m hm; rw [List.mem_singleton] at hm; subst hm; rfl) rfl
  rw [this]
  rfl

/-- **C6.** `run_job(job_id, runtime)` executes exactly the first job in
sequential order whose wrapped job's `id` equals `job_id` (and no other job),
and when no job in the sequential order has that id it raises the fatal
`ValueError("Job {job_id} not found.")`. -/
theorem C6_run_job_executes_only_the_matching_job
    (w : Workflow) (now : ℕ) (raw : RuntimeRaw) (jobId : String) (ctx : JobContext)
    (hctx : makeJobContext w.workflowId now raw = .ok ctx) :
    (∀ (pre post : List ℕ) (n : ℕ), buildSequentialOrder w = pre ++ n :: post →
        (∀ m ∈ pre, (w.jobs m).id ≠ jobId) → (w.jobs n).id = jobId →
        runJob w now jobId raw = ([(n, ctx)], errOf (executeJob (w.jobs n) ctx))) ∧
    ((∀ m ∈ buildSequentialOrder w, (w.jobs m).id ≠ jobId) →
        runJob w now jobId raw =
          ([], some (.valueError ("Job " ++ jobId ++ " not found.")))) := by
  constructor
  · intro pre post n horder hpre hn
    unfold runJob
    rw [hctx, horder,
      find?_of_decomp _ pre n post (by simpa using hpre) (by simpa using hn)]
    cases hex : executeJob (w.jobs n) ctx with
    | ok u => cases u; simp [errOf, hex]
    | error e => simp [errOf, hex]
  · intro hnone
    unfold runJob
    rw [hctx, List.find?_eq_none.mpr (by simpa using hnone)]

/-- Witness for C6: a three-job workflow where only job `1` has id `"b"`;
`run_job("b")` executes exactly job `1`, and `run_job("z")` raises the
job-not-found `ValueError`. -/
theorem C6_witness :
    (runJob
      ⟨"w", convertListToGraph [0, 1, 2],
        fun n => ⟨if n = 1 then "b" else "a", some fun _ => .ok ()⟩⟩
      0 "b" .noneArg = ([(1, ⟨0, "1-01-01 00:00:00", "w"⟩)], none)) ∧
    (runJob
      ⟨"w", convertListToGraph [0, 1, 2],
        fun n => ⟨if n = 1 then "b" else "a", some fun _ => .ok ()⟩⟩
      0 "z" .noneArg = ([], some (.valueError "Job z not found."))) := by
  constructor
  · have := (C6_run_job_executes_only_the_matching_job
      ⟨"w", convertListToGraph [0, 1, 2],
        fun n => ⟨if n = 1 then "b" else "a", some fun _ => .ok ()⟩⟩
      0 .noneArg "b" ⟨0, "1-01-01 00:00:00", "w"⟩ rfl).1
      [0] [2] 1 rfl (by decide) rfl
    rw [this]; rfl
  · have := (C6_run_job_executes_only_the_matching_job
      ⟨"w", convertListToGraph [0, 1, 2],
        fun n => ⟨if n = 1 then "b" else "a", some fun _ => .ok ()⟩⟩
      0 .noneArg "z" ⟨0, "1-01-01 00:00:00", "w"⟩ rfl).2
      (by decide)
    rw [this]
    rfl

/-- A successful `strptime` with the date-only format always produces a
midnight timestamp. -/
theorem strptimeFmt2_midnight (s : String) (t : ℕ) (h : strptimeFmt2 s = some t) :
    t % usPerDay = 0 := by
  unfold strptimeFmt2 at h
  simp only [bind, Option.bind_eq_some] at h
  obtain ⟨⟨y, r⟩, _, h⟩ := h
  obtain ⟨r, _, h⟩ := h
  obtain ⟨⟨m, r⟩, _, h⟩ := h
  obtain ⟨r, _, h⟩ := h
  obtain ⟨⟨d, r⟩, _, h⟩ := h
  split at h
  · cases h
    show dtOfCivil y m d 0 0 0 % usPerDay = 0
    unfold dtOfCivil usPerSec usPerDay
    have : (daysFromCivil y m d * 86400 + 0 * 3600 + 0 * 60 + 0) * 1000000 =
        daysFromCivil y m d * 86400000000 := by ring
    rw [this]
    exact Nat.mul_mod_left _ _
  · cases h

/-- **C7.** `_make_job_context`: a string is parsed trying format
`"%Y-%m-%d %H:%M:%S"` first and `"%Y-%m-%d"` second, the first successful
parse giving the context's runtime (a date-only string hence yields zero
hour/minute/second); `None` yields the current local time; a `datetime` is
used as-is.  A string matching neither format, however, does **not** raise the
intended unparseable-runtime `ValueError`: the `raise` statement evaluates the
unbound name `rt`, so what is raised is `NameError: name 'rt' is not defined`
(the code bug recorded for this claim). -/
theorem C7_make_job_context_parsing :
    (∀ s t, strptimeFmt1 s = some t → parseRuntimeStr s = .ok t) ∧
    (∀ s t, strptimeFmt1 s = none → strptimeFmt2 s = some t →
      parseRuntimeStr s = .ok t) ∧
    (∀ s t, strptimeFmt2 s = some t → t % usPerDay = 0) ∧
    (∀ wid now, makeJobContext wid now .noneArg = .ok ⟨now, strftimeFmt1 now, wid⟩) ∧
    (∀ wid now t, makeJobContext wid now (.dtArg t) = .ok ⟨t, strftimeFmt1 t, wid⟩) ∧
    (∀ s, strptimeFmt1 s = none → strptimeFmt2 s = none →
      parseRuntimeStr s = .error (.nameError "rt")) := by
  refine ⟨?_, ?_, strptimeFmt2_midnight, fun _ _ => rfl, fun _ _ _ => rfl, ?_⟩
  · intro s t h; unfold parseRuntimeStr; rw [h]
  · intro s t h1 h2; unfold parseRuntimeStr; rw [h1, h2]
  · intro s h1 h2; unfold parseRuntimeStr; rw [h1, h2]

/-- Witness for C7, at the inputs `"2020-06-27 15:00:00"` (full format),
`"2020-06-27"` (date-only, a midnight runtime) and `"garbage"`
(the failing input, producing the `NameError`). -/
theorem C7_witness :
    parseRuntimeStr "2020-06-27 15:00:00" = .ok (dtOfCivil 2020 6 27 15 0 0) ∧
    parseRuntimeStr "2020-06-27" = .ok (dtOfCivil 2020 6 27 0 0 0) ∧
    dtOfCivil 2020 6 27 0 0 0 % usPerDay = 0 ∧
    parseRuntimeStr "garbage" = .error (.nameError "rt") :=
  ⟨C7_make_job_context_parsing.1 _ _ (by decide),
   C7_make_job_context_parsing.2.1 _ _ (by decide) (by decide),
   C7_make_job_context_parsing.2.2.1 "2020-06-27" _ (by decide),
   C7_make_job_context_parsing.2.2.2.2.2 _ (by decide) (by decide)⟩

/-- **C8, counterexample.**  The claim says `runtime_as_str` always equals the
context's runtime rendered with the first format; but for the date-only string
input `"2020-06-27"` the code keeps the *original* string, which differs from
the first-format rendering `"2020-06-27 00:00:00"` of the parsed runtime. -/
theorem C8_counterexample :
    (makeJobContext "w" 0 (.strArg "2020-06-27")).map (fun c => c.runtimeAsStr) =
      .ok "2020-06-27" ∧
    (makeJobContext "w" 0 (.strArg "2020-06-27")).map (fun c => strftimeFmt1 c.runtime) =
      .ok "2020-06-27 00:00:00" ∧
    ("2020-06-27" : String) ≠ "2020-06-27 00:00:00" :=
  ⟨rfl, rfl, by decide⟩

/-- **C8, amended.**  For string input the context's `runtime_as_str` is the
original string (so it coincides with the first-format rendering exactly when
the input was in the full format, e.g. `"2020-06-27 15:00:00"`); for `None`
and `datetime` input it is the runtime rendered with the first format
`"%Y-%m-%d %H:%M:%S"`. -/
theorem C8_runtime_as_str :
    (∀ wid now s ctx, makeJobContext wid now (.strArg s) = .ok ctx →
      ctx.runtimeAsStr = s) ∧
    (∀ wid now ctx, makeJobContext wid now .noneArg = .ok ctx →
      ctx.runtime = now ∧ ctx.runtimeAsStr = strftimeFmt1 ctx.runtime) ∧
    (∀ wid now t ctx, makeJobContext wid now (.dtArg t) = .ok ctx →
      ctx.runtime = t ∧ ctx.runtimeAsStr = strftimeFmt1 ctx.runtime) ∧
    (makeJobContext "w" 0 (.strArg "2020-06-27 15:00:00")).map (fun c => c.runtimeAsStr) =
      .ok "2020-06-27 15:00:00" := by
  refine ⟨?_, ?_, ?_, rfl⟩
  · intro wid now s ctx h
    have h' : (parseRuntimeStr s).map
        (fun t => (⟨t, s, wid⟩ : JobContext)) = .ok ctx := h
    cases hp : parseRuntimeStr s with
    | ok t => rw [hp] at h'; cases h'; rfl
    | error e => rw [hp] at h'; cases h'
  · intro wid now ctx h; cases h; exact ⟨rfl, rfl⟩
  · intro wid now t ctx h; cases h; exact ⟨rfl, rfl⟩

/-- Witness for C8 (amended): the three input shapes at concrete values. -/
theorem C8_witness :
    (⟨dtOfCivil 2020 6 27 0 0 0, "2020-06-27", "w"⟩ : JobContext).runtimeAsStr =
      "2020-06-27" ∧
    (⟨5, strftimeFmt1 5, "w"⟩ : JobContext).runtime = 5 ∧
    (⟨7, strftimeFmt1 7, "w"⟩ : JobContext).runtime = 7 :=
  ⟨C8_runtime_as_str.1 "w" 0 "2020-06-27" _ rfl,
   (C8_runtime_as_str.2.1 "w" 5 _ rfl).1,
   (C8_runtime_as_str.2.2.1 "w" 0 7 _ rfl).1⟩

/-- **C9, counterexample.**  The claim says `hourly_start_time` truncates to
the *hour* boundary minus the UTC offset and `daily_start_time` truncates to
the day boundary minus the UTC offset.  In the code, `hourly_start_time` only
drops microseconds (`replace(microsecond=0)`) before subtracting the offset,
and `daily_start_time` subtracts a fixed 24 hours, not the offset: both
disagree with the claimed functions at 2020-01-01 10:30:00 with offset
3600 s. -/
theorem C9_counterexample :
    hourly_start_time 3600 (dtOfCivil 2020 1 1 10 30 0) ≠
      hourly_start_time_claimed 3600 (dtOfCivil 2020 1 1 10 30 0) ∧
    daily_start_time (dtOfCivil 2020 1 1 10 30 0) ≠
      daily_start_time_claimed 3600 (dtOfCivil 2020 1 1 10 30 0) := by
  exact ⟨by decide, by decide⟩

/-- **C9, amended.**  Both helpers are pure functions of their input (plus,
for `hourly_start_time`, the local UTC offset): `hourly_start_time` is the
input truncated to the whole *second* (microseconds dropped) minus the UTC
offset, and `daily_start_time` is the input truncated to the day boundary
minus a fixed 24 hours (it does not depend on the timezone). -/
theorem C9_start_time_helpers :
    (∀ o t, o * usPerSec ≤ t - t % usPerSec →
      hourly_start_time o t + o * usPerSec = t - t % usPerSec ∧
        hourly_start_time o t % usPerSec = 0) ∧
    (∀ t, usPerDay ≤ t - t % usPerDay →
      daily_start_time t + usPerDay = t - t % usPerDay ∧
        daily_start_time t % usPerDay = 0) := by
  constructor
  · intro o t h
    unfold hourly_start_time usPerSec at *
    omega
  · intro t h
    unfold daily_start_time usPerDay at *
    omega

/-- Witness for C9 (amended) at 2020-01-01 10:30:00, offset 3600 s. -/
theorem C9_witness :
    hourly_start_time 3600 (dtOfCivil 2020 1 1 10 30 0) + 3600 * usPerSec =
      dtOfCivil 2020 1 1 10 30 0 -
        dtOfCivil 2020 1 1 10 30 0 % usPerSec ∧
    daily_start_time (dtOfCivil 2020 1 1 10 30 0) % usPerDay = 0 :=
  ⟨(C9_start_time_helpers.1 3600 _ (by decide)).1,
   (C9_start_time_helpers.2 _ (by decide)).2⟩

/-! ## Association-list lemmas -/

theorem alookup_nil (j : ℕ) : alookup [] j = none := rfl

theorem alookup_cons (k : ℕ) (l : List ℕ) (g : Graph) (j : ℕ) :
    alookup ((k, l) :: g) j = if k = j then some l else alookup g j := by
  by_cases h : k = j <;> simp [alookup, List.find?, h]

theorem alookup_append (g₁ g₂ : Graph) (j : ℕ) :
    alookup (g₁ ++ g₂) j = (alookup g₁ j).or (alookup g₂ j) := by
  induction g₁ with
  | nil => simp [alookup_nil]
  | cons e g₁ ih =>
    obtain ⟨k, l⟩ := e
    by_cases h : k = j <;> simp [alookup_cons, h, ih]

theorem alookup_eq_none_iff (g : Graph) (j : ℕ) :
    alookup g j = none ↔ j ∉ gkeys g := by
  induction g with
  | nil => simp [alookup_nil, gkeys]
  | cons e g ih =>
    obtain ⟨k, l⟩ := e
    by_cases h : k = j
    · simp [alookup_cons, h, gkeys]
    · simp only [alookup_cons, if_neg h, gkeys, List.map_cons, List.mem_cons]
      rw [gkeys] at ih
      rw [ih]
      tauto

theorem alookup_isSome_iff (g : Graph) (j : ℕ) :
    (alookup g j).isSome = true ↔ j ∈ gkeys g := by
  rw [Option.isSome_iff_ne_none]
  have := alookup_eq_none_iff g j
  tauto

theorem aval_of_not_mem (g : Graph) (j : ℕ) (h : j ∉ gkeys g) : aval g j = [] := by
  unfold aval
  rw [(alookup_eq_none_iff g j).mpr h]
  rfl

theorem mem_aval_iff (g : Graph) (j x : ℕ) :
    x ∈ aval g j ↔ ∃ l, alookup g j = some l ∧ x ∈ l := by
  unfold aval
  cases h : alookup g j <;> simp

theorem aval_eq_of_alookup {g : Graph} {j : ℕ} {l : List ℕ}
    (h : alookup g j = some l) : aval g j = l := by
  unfold aval
  rw [h]
  rfl

theorem aval_eq_nil_of_alookup {g : Graph} {j : ℕ}
    (h : alookup g j = none) : aval g j = [] := by
  unfold aval
  rw [h]
  rfl

theorem edge_src_mem_gkeys {g : Graph} {a b : ℕ} (h : edgeRel g a b) :
    a ∈ gkeys g := by
  rcases (mem_aval_iff g a b).mp h with ⟨l, hl, _⟩
  by_contra hk
  rw [(alookup_eq_none_iff g a).mpr hk] at hl
  cases hl

/-! ## Correctness of `JobGraphValidator` (claim C2)

The three facts proved about `_validate_job`, each by induction on the fuel
(the loop over dependencies, `validateDeps`, is handled generically in the
recursive call `f`):

* `vjob_ok_spec`: a normal return extends `visited`, includes the walked job,
  implies the job was not on the stack, and preserves the invariant
  `NoCycFrom` — every visited job off the stack lies on no cycle.
* `vjob_cyclic_spec`: a cyclic-dependency error names a job lying on an
  actual cycle of the graph, given the stack invariant that every stacked job
  reaches the walked job.
* `vjob_not_nofuel`: the fuel `|graph| + 2` never runs out. -/

/-- Every visited job off the stack lies on no cycle. -/
def NoCycFrom (g : Graph) (v stk : List ℕ) : Prop :=
  ∀ x ∈ v, x ∉ stk → ¬ Relation.TransGen (edgeRel g) x x

/-- The normal-return postcondition of one `_validate_job` call. -/
def VJobOk (g : Graph) (j : ℕ) (v stk v' : List ℕ) : Prop :=
  (∀ x ∈ v, x ∈ v') ∧ j ∈ v' ∧ j ∉ stk ∧
    (NoCycFrom g v stk → NoCycFrom g v' stk)

theorem vdeps_ok_spec (g : Graph) (f : ℕ → List ℕ → List ℕ → VRes)
    (hf : ∀ j v stk v', f j v stk = .ok v' → VJobOk g j v stk v') :
    ∀ (ds v stk v' : _), validateDeps f ds v stk = .ok v' →
      (∀ x ∈ v, x ∈ v') ∧ (∀ d ∈ ds, d ∈ v' ∧ d ∉ stk) ∧
        (NoCycFrom g v stk → NoCycFrom g v' stk) := by
  intro ds
  induction ds with
  | nil =>
    intro v stk v' h
    cases h
    exact ⟨fun x hx => hx, by simp, fun G => G⟩
  | cons d ds ih =>
    intro v stk v' h
    rw [validateDeps] at h
    cases hd : f d v stk with
    | ok v₁ =>
      rw [hd] at h
      obtain ⟨hm₁, hdin, hds, hG₁⟩ := hf d v stk v₁ hd
      obtain ⟨hm₂, hall, hG₂⟩ := ih v₁ stk v' h
      refine ⟨fun x hx => hm₂ x (hm₁ x hx), ?_, fun G => hG₂ (hG₁ G)⟩
      intro e he
      rcases List.mem_cons.mp he with rfl | he
      · exact ⟨hm₂ e hdin, hds⟩
      · exact hall e he
    | cyclic c => rw [hd] at h; cases h
    | nofuel => rw [hd] at h; cases h

theorem vjob_ok_spec (g : Graph) :
    ∀ (fuel j v stk v' : _), validateJob g fuel j v stk = .ok v' →
      VJobOk g j v stk v' := by
  intro fuel
  induction fuel with
  | zero => intro j v stk v' h; cases h
  | succ fuel ih =>
    intro j v stk v' h
    rw [validateJob] at h
    by_cases h1 : j ∈ stk
    · rw [if_pos h1] at h; cases h
    · rw [if_neg h1] at h
      by_cases h2 : j ∈ v
      · rw [if_pos h2] at h
        cases h
        exact ⟨fun x hx => hx, h2, h1, fun G => G⟩
      · rw [if_neg h2] at h
        cases halk : alookup g j with
        | none =>
          rw [halk] at h
          cases h
          refine ⟨fun x hx => List.mem_cons_of_mem _ hx,
            List.mem_cons_self _ _, h1, ?_⟩
          intro G x hx hxs
          rcases List.mem_cons.mp hx with rfl | hxv
          · intro hcyc
            rcases Relation.TransGen.head'_iff.mp hcyc with ⟨c, hstep, _⟩
            have : c ∈ aval g x := hstep
            rw [aval_eq_nil_of_alookup halk] at this
            cases this
          · exact G x hxv hxs
        | some deps =>
          rw [halk] at h
          obtain ⟨hm, hall, hG⟩ :=
            vdeps_ok_spec g (validateJob g fuel) ih deps (j :: v) (j :: stk) v' h
          refine ⟨fun x hx => hm x (List.mem_cons_of_mem _ hx),
            hm j (List.mem_cons_self _ _), h1, ?_⟩
          intro G
          have G₁ : NoCycFrom g (j :: v) (j :: stk) := by
            intro x hx hxs
            rcases List.mem_cons.mp hx with rfl | hxv
            · exact absurd (List.mem_cons_self _ _) hxs
            · exact G x hxv fun hs => hxs (List.mem_cons_of_mem _ hs)
          have G₂ : NoCycFrom g v' (j :: stk) := hG G₁
          have hnotj : ¬ Relation.TransGen (edgeRel g) j j := by
            intro hcyc
            rcases Relation.TransGen.head'_iff.mp hcyc with ⟨c, hstep, htail⟩
            have hc : c ∈ deps := by
              have h' : c ∈ aval g j := hstep
              rwa [aval_eq_of_alookup halk] at h'
            exact G₂ c (hall c hc).1 (hall c hc).2
              (Relation.TransGen.tail' htail hstep)
          intro x hx hxs
          by_cases hxj : x = j
          · exact hxj ▸ hnotj
          · exact G₂ x hx (by
              intro hmem
              rcases List.mem_cons.mp hmem with h' | h'
              · exact hxj h'
              · exact hxs h')

theorem vdeps_cyclic_spec (g : Graph) (f : ℕ → List ℕ → List ℕ → VRes)
    (hf : ∀ j v stk c, f j v stk = .cyclic c →
      (∀ s ∈ stk, Relation.TransGen (edgeRel g) s j) →
      Relation.TransGen (edgeRel g) c c) :
    ∀ (ds v stk c : _), validateDeps f ds v stk = .cyclic c →
      (∀ d ∈ ds, ∀ s ∈ stk, Relation.TransGen (edgeRel g) s d) →
      Relation.TransGen (edgeRel g) c c := by
  intro ds
  induction ds with
  | nil => intro v stk c h; cases h
  | cons d ds ih =>
    intro v stk c h hstk
    rw [validateDeps] at h
    cases hd : f d v stk with
    | ok v₁ =>
      rw [hd] at h
      exact ih v₁ stk c h fun e he => hstk e (List.mem_cons_of_mem _ he)
    | cyclic c' =>
      rw [hd] at h
      cases h
      exact hf d v stk c hd (hstk d (List.mem_cons_self _ _))
    | nofuel => rw [hd] at h; cases h

theorem vjob_cyclic_spec (g : Graph) :
    ∀ (fuel j v stk c : _), validateJob g fuel j v stk = .cyclic c →
      (∀ s ∈ stk, Relation.TransGen (edgeRel g) s j) →
      Relation.TransGen (edgeRel g) c c := by
  intro fuel
  induction fuel with
  | zero => intro j v stk c h; cases h
  | succ fuel ih =>
    intro j v stk c h hstk
    rw [validateJob] at h
    by_cases h1 : j ∈ stk
    · rw [if_pos h1] at h
      cases h
      exact hstk _ h1
    · rw [if_neg h1] at h
      by_cases h2 : j ∈ v
      · rw [if_pos h2] at h; cases h
      · rw [if_neg h2] at h
        cases halk : alookup g j with
        | none => rw [halk] at h; cases h
        | some deps =>
          rw [halk] at h
          refine vdeps_cyclic_spec g (validateJob g fuel) ih
            deps (j :: v) (j :: stk) c h ?_
          intro d hd s hs
          have hstep : edgeRel g j d := by
            show d ∈ aval g j
            rw [aval_eq_of_alookup halk]
            exact hd
          rcases List.mem_cons.mp hs with rfl | hs
          · exact Relation.TransGen.single hstep
          · exact (hstk s hs).tail hstep

/-- The number of graph keys not yet visited: the termination measure. -/
def unvis (g : Graph) (v : List ℕ) : ℕ :=
  ((gkeys g).toFinset \ v.toFinset).card

theorem unvis_le_of_subset (g : Graph) {v v' : List ℕ}
    (h : ∀ x ∈ v, x ∈ v') : unvis g v' ≤ unvis g v := by
  apply Finset.card_le_card
  apply Finset.sdiff_subset_sdiff (le_refl _)
  intro x hx
  exact List.mem_toFinset.mpr (h x (List.mem_toFinset.mp hx))

theorem unvis_cons_lt (g : Graph) {j : ℕ} {v : List ℕ}
    (hj : j ∈ gkeys g) (hv : j ∉ v) : unvis g (j :: v) < unvis g v := by
  unfold unvis
  rw [List.toFinset_cons, Finset.sdiff_insert]
  exact Finset.card_erase_lt_of_mem
    (Finset.mem_sdiff.mpr ⟨List.mem_toFinset.mpr hj, fun h => hv (List.mem_toFinset.mp h)⟩)

theorem vdeps_not_nofuel (g : Graph) (fuel : ℕ)
    (hfok : ∀ j v stk v', validateJob g fuel j v stk = .ok v' → VJobOk g j v stk v')
    (hfnf : ∀ j v stk, unvis g v + 2 ≤ fuel → validateJob g fuel j v stk ≠ .nofuel) :
    ∀ (ds v stk : _), unvis g v + 2 ≤ fuel →
      validateDeps (validateJob g fuel) ds v stk ≠ .nofuel := by
  intro ds
  induction ds with
  | nil => intro v stk _ h; cases h
  | cons d ds ih =>
    intro v stk hle h
    rw [validateDeps] at h
    cases hd : validateJob g fuel d v stk with
    | ok v₁ =>
      rw [hd] at h
      have hmono := (hfok d v stk v₁ hd).1
      exact ih v₁ stk (le_trans (by
        have := unvis_le_of_subset g hmono
        omega) hle) h
    | cyclic c => rw [hd] at h; cases h
    | nofuel => exact hfnf d v stk hle hd

theorem vjob_not_nofuel (g : Graph) :
    ∀ (fuel j v stk : _), unvis g v + 2 ≤ fuel →
      validateJob g fuel j v stk ≠ .nofuel := by
  intro fuel
  induction fuel with
  | zero => intro j v stk hle; omega
  | succ fuel ih =>
    intro j v stk hle h
    rw [validateJob] at h
    by_cases h1 : j ∈ stk
    · rw [if_pos h1] at h; cases h
    · rw [if_neg h1] at h
      by_cases h2 : j ∈ v
      · rw [if_pos h2] at h; cases h
      · rw [if_neg h2] at h
        cases halk : alookup g j with
        | none => rw [halk] at h; cases h
        | some deps =>
          rw [halk] at h
          have hj : j ∈ gkeys g := by
            rw [← alookup_isSome_iff, halk]
            rfl
          have hlt := unvis_cons_lt g hj h2
          exact vdeps_not_nofuel g fuel (vjob_ok_spec g fuel) ih deps
            (j :: v) (j :: stk) (by omega) h

/-! ### Top-level validation -/

theorem validateAll_ok_spec (g : Graph) :
    ∀ (ks fuel v v' : _), validateAll g fuel ks v = .ok v' →
      (∀ x ∈ v, x ∈ v') ∧ (∀ k ∈ ks, k ∈ v') ∧
        (NoCycFrom g v [] → NoCycFrom g v' []) := by
  intro ks
  induction ks with
  | nil =>
    intro fuel v v' h
    cases h
    exact ⟨fun x hx => hx, by simp, fun G => G⟩
  | cons k ks ih =>
    intro fuel v v' h
    rw [validateAll] at h
    cases hk : validateJob g fuel k v [] with
    | ok v₁ =>
      rw [hk] at h
      obtain ⟨hm₁, hkin, _, hG₁⟩ := vjob_ok_spec g fuel k v [] v₁ hk
      obtain ⟨hm₂, hall, hG₂⟩ := ih fuel v₁ v' h
      refine ⟨fun x hx => hm₂ x (hm₁ x hx), ?_, fun G => hG₂ (hG₁ G)⟩
      intro e he
      rcases List.mem_cons.mp he with rfl | he
      · exact hm₂ e hkin
      · exact hall e he
    | cyclic c => rw [hk] at h; cases h
    | nofuel => rw [hk] at h; cases h

theorem validateAll_cyclic_spec (g : Graph) :
    ∀ (ks fuel v c : _), validateAll g fuel ks v = .cyclic c →
      Relation.TransGen (edgeRel g) c c := by
  intro ks
  induction ks with
  | nil => intro fuel v c h; cases h
  | cons k ks ih =>
    intro fuel v c h
    rw [validateAll] at h
    cases hk : validateJob g fuel k v [] with
    | ok v₁ => rw [hk] at h; exact ih fuel v₁ c h
    | cyclic c' =>
      rw [hk] at h
      cases h
      exact vjob_cyclic_spec g fuel k v [] c hk (by simp)
    | nofuel => rw [hk] at h; cases h

theorem validateAll_not_nofuel (g : Graph) :
    ∀ (ks fuel v : _), unvis g v + 2 ≤ fuel →
      validateAll g fuel ks v ≠ .nofuel := by
  intro ks
  induction ks with
  | nil => intro fuel v _ h; cases h
  | cons k ks ih =>
    intro fuel v hle h
    rw [validateAll] at h
    cases hk : validateJob g fuel k v [] with
    | ok v₁ =>
      rw [hk] at h
      have hmono := (vjob_ok_spec g fuel k v [] v₁ hk).1
      exact ih fuel v₁ (le_trans (by
        have := unvis_le_of_subset g hmono
        omega) hle) h
    | cyclic c => rw [hk] at h; cases h
    | nofuel => exact vjob_not_nofuel g fuel k v [] hle hk

theorem validateGraph_ne_nofuel (g : Graph) : validateGraph g ≠ .nofuel := by
  apply validateAll_not_nofuel
  have h1 : (gkeys g).toFinset.card ≤ (gkeys g).length := List.toFinset_card_le _
  have h2 : (gkeys g).length = g.length := by simp [gkeys]
  unfold unvis
  simp only [List.toFinset_nil, Finset.sdiff_empty]
  omega

/-- A node on a cycle is a key of the graph. -/
theorem cyc_mem_gkeys {g : Graph} {n : ℕ}
    (h : Relation.TransGen (edgeRel g) n n) : n ∈ gkeys g := by
  rcases Relation.TransGen.head'_iff.mp h with ⟨c, hstep, _⟩
  exact edge_src_mem_gkeys hstep

theorem validateGraph_ok_acyclic {g : Graph} {v : List ℕ}
    (h : validateGraph g = .ok v) : Acyclic g := by
  obtain ⟨_, hall, hG⟩ := validateAll_ok_spec g (gkeys g) (g.length + 2) [] v h
  intro n hcyc
  have hn : n ∈ gkeys g := cyc_mem_gkeys hcyc
  exact hG (by intro x hx; cases hx) n (hall n hn) (by simp) hcyc

/-- **C2.** `JobGraphValidator.validate` completes without raising iff the
dependency graph is acyclic, and whenever it raises the cyclic-dependency
error, the job it names lies on an actual cycle of the graph. -/
theorem C2_validate_iff_acyclic (g : Graph) :
    ((∃ v, validateGraph g = .ok v) ↔ Acyclic g) ∧
    (∀ c, validateGraph g = .cyclic c → Relation.TransGen (edgeRel g) c c) := by
  refine ⟨⟨fun ⟨v, hv⟩ => validateGraph_ok_acyclic hv, ?_⟩,
    fun c hc => validateAll_cyclic_spec g (gkeys g) (g.length + 2) [] c hc⟩
  intro hacyc
  cases hres : validateGraph g with
  | ok v => exact ⟨v, rfl⟩
  | cyclic c =>
    exact absurd (validateAll_cyclic_spec g (gkeys g) (g.length + 2) [] c hres)
      (hacyc c)
  | nofuel => exact absurd hres (validateGraph_ne_nofuel g)

/-- Witness for C2: the two-cycle `{0: [1], 1: [0]}` makes `validate` raise
the error naming node `0`, which indeed lies on a cycle; and the acyclic
diamond `{0: [1,2], 1: [3], 2: [3]}` is accepted, hence proved acyclic. -/
theorem C2_witness :
    Relation.TransGen (edgeRel [(0, [1]), (1, [0])]) 0 0 ∧
    Acyclic [(0, [1, 2]), (1, [3]), (2, [3])] :=
  ⟨(C2_validate_iff_acyclic [(0, [1]), (1, [0])]).2 0 rfl,
   (C2_validate_iff_acyclic [(0, [1, 2]), (1, [3]), (2, [3])]).1.mp
     ⟨[2, 3, 1, 0], rfl⟩⟩

/-! ## Lemmas about `pmAddKey` and `pmAppend` -/

theorem alookup_pmAddKey_self (pm : Graph) (j : ℕ) :
    alookup (pmAddKey pm j) j = some (aval pm j) := by
  unfold pmAddKey
  cases h : alookup pm j with
  | some l => simp [h, aval_eq_of_alookup h]
  | none =>
    simp only [h, Option.isSome_none, Bool.false_eq_true, if_false]
    rw [alookup_append, h, Option.none_or, alookup_cons]
    simp [aval_eq_nil_of_alookup h]

theorem alookup_pmAddKey_ne (pm : Graph) (j t : ℕ) (h : t ≠ j) :
    alookup (pmAddKey pm j) t = alookup pm t := by
  unfold pmAddKey
  cases hj : alookup pm j with
  | some l => simp
  | none =>
    simp only [hj, Option.isSome_none, Bool.false_eq_true, if_false]
    rw [alookup_append, alookup_cons]
    simp [Ne.symm h, alookup_nil]

theorem aval_pmAddKey (pm : Graph) (j t : ℕ) :
    aval (pmAddKey pm j) t = aval pm t := by
  by_cases h : t = j
  · subst h
    exact aval_eq_of_alookup (alookup_pmAddKey_self pm t)
  · unfold aval
    rw [alookup_pmAddKey_ne pm j t h]

theorem mem_gkeys_pmAddKey (pm : Graph) (j t : ℕ) :
    t ∈ gkeys (pmAddKey pm j) ↔ t ∈ gkeys pm ∨ t = j := by
  unfold pmAddKey
  cases hj : alookup pm j with
  | some l =>
    simp only [hj, Option.isSome_some, if_true]
    constructor
    · exact Or.inl
    · rintro (h | rfl)
      · exact h
      · rw [← alookup_isSome_iff, hj]; rfl
  | none =>
    simp only [hj, Option.isSome_none, Bool.false_eq_true, if_false]
    simp [gkeys]

theorem alookup_pmAppend_self (pm : Graph) (t j : ℕ) :
    alookup (pmAppend pm t j) t = (alookup pm t).map (· ++ [j]) := by
  induction pm with
  | nil => rfl
  | cons e pm ih =>
    obtain ⟨k, l⟩ := e
    by_cases h : k = t
    · subst h
      simp [pmAppend, alookup_cons]
    · simp [pmAppend, h, alookup_cons, ih]

theorem alookup_pmAppend_ne (pm : Graph) (t j x : ℕ) (h : x ≠ t) :
    alookup (pmAppend pm t j) x = alookup pm x := by
  induction pm with
  | nil => rfl
  | cons e pm ih =>
    obtain ⟨k, l⟩ := e
    by_cases hk : k = t
    · subst hk
      simp [pmAppend, alookup_cons, Ne.symm h]
    · by_cases hx : k = x <;> simp [pmAppend, hk, alookup_cons, hx, ih, h]

theorem gkeys_pmAppend (pm : Graph) (t j : ℕ) :
    gkeys (pmAppend pm t j) = gkeys pm := by
  induction pm with
  | nil => rfl
  | cons e pm ih =>
    obtain ⟨k, l⟩ := e
    by_cases h : k = t
    · simp [pmAppend, h, gkeys]
    · simp only [pmAppend, if_neg h]
      simpa [gkeys] using ih

/-! ## Invariants of `_build_parental_map`

`PMEvolves g pm v pm' v'` records how one (completed) recursive call of
`_fill_parental_map` moves the state `(parental_map, visited)` forward:
keys and recorded parents only grow; every recorded parent edge `p ∈ pm'[t]`
is either old or an actual graph edge `t ∈ g[p]` of a key `p`; visited jobs
are graph keys; and (`done`) modulo an exception list `E` (the recursion
path), every visited job has its parental-map entry and all of its edges
recorded. -/

/-- Job `s` is fully recorded in the parental map: it has an entry, and it
has been appended to the parent list of each of its dependencies. -/
def PMDone (g pm : Graph) (s : ℕ) : Prop :=
  s ∈ gkeys pm ∧ ∀ t ∈ aval g s, s ∈ aval pm t

structure PMEvolves (g pm : Graph) (v : List ℕ) (pm' : Graph) (v' : List ℕ) : Prop where
  keysMono : ∀ t ∈ gkeys pm, t ∈ gkeys pm'
  valMono : ∀ t p, p ∈ aval pm t → p ∈ aval pm' t
  keysSound : ∀ t ∈ gkeys pm',
    t ∈ gkeys pm ∨ t ∈ gkeys g ∨ ∃ s, s ∈ gkeys g ∧ t ∈ aval g s
  valSound : ∀ t p, p ∈ aval pm' t →
    p ∈ aval pm t ∨ (p ∈ gkeys g ∧ t ∈ aval g p)
  vMono : ∀ x ∈ v, x ∈ v'
  vSound : ∀ x ∈ v', x ∈ v ∨ x ∈ gkeys g
  done : ∀ E : List ℕ, (∀ s ∈ v, s ∉ E → PMDone g pm s) →
    ∀ s ∈ v', s ∉ E → PMDone g pm' s

theorem PMEvolves.rfl (g pm : Graph) (v : List ℕ) : PMEvolves g pm v pm v where
  keysMono := fun _ h => h
  valMono := fun _ _ h => h
  keysSound := fun _ h => Or.inl h
  valSound := fun _ _ h => Or.inl h
  vMono := fun _ h => h
  vSound := fun _ h => Or.inl h
  done := fun _ h => h

theorem PMEvolves.trans {g pm₁ : Graph} {v₁ : List ℕ} {pm₂ : Graph} {v₂ : List ℕ}
    {pm₃ : Graph} {v₃ : List ℕ}
    (h₁ : PMEvolves g pm₁ v₁ pm₂ v₂) (h₂ : PMEvolves g pm₂ v₂ pm₃ v₃) :
    PMEvolves g pm₁ v₁ pm₃ v₃ where
  keysMono := fun t h => h₂.keysMono t (h₁.keysMono t h)
  valMono := fun t p h => h₂.valMono t p (h₁.valMono t p h)
  keysSound := fun t h => by
    rcases h₂.keysSound t h with h' | h'
    · exact h₁.keysSound t h'
    · exact Or.inr h'
  valSound := fun t p h => by
    rcases h₂.valSound t p h with h' | h'
    · exact h₁.valSound t p h'
    · exact Or.inr h'
  vMono := fun x h => h₂.vMono x (h₁.vMono x h)
  vSound := fun x h => by
    rcases h₂.vSound x h with h' | h'
    · exact h₁.vSound x h'
    · exact Or.inr h'
  done := fun E h => h₂.done E (h₁.done E h)

/-- The `parental_map[dependency] = []` / `parental_map[dependency].append(job)`
step of the dependency loop. -/
theorem pmEvolves_addAppend (g pm : Graph) (v : List ℕ) {d j : ℕ}
    (hj : j ∈ gkeys g) (hd : d ∈ aval g j) :
    PMEvolves g pm v (pmAppend (pmAddKey pm d) d j) v := by
  have hval : ∀ t, aval (pmAppend (pmAddKey pm d) d j) t =
      if t = d then aval pm d ++ [j] else aval pm t := by
    intro t
    by_cases ht : t = d
    · subst ht
      rw [if_pos rfl]
      unfold aval
      rw [alookup_pmAppend_self, alookup_pmAddKey_self]
      rfl
    · rw [if_neg ht]
      unfold aval
      rw [alookup_pmAppend_ne _ _ _ _ ht, alookup_pmAddKey_ne _ _ _ ht]
  have hkeys : ∀ t, t ∈ gkeys (pmAppend (pmAddKey pm d) d j) ↔
      t ∈ gkeys pm ∨ t = d := by
    intro t
    rw [gkeys_pmAppend, mem_gkeys_pmAddKey]
  refine ⟨?_, ?_, ?_, ?_, fun _ h => h, fun x h => Or.inl h, ?_⟩
  · intro t ht
    exact (hkeys t).mpr (Or.inl ht)
  · intro t p hp
    rw [hval t]
    by_cases ht : t = d
    · subst ht; simp [hp]
    · simpa [ht] using hp
  · intro t ht
    rcases (hkeys t).mp ht with h | rfl
    · exact Or.inl h
    · exact Or.inr (Or.inr ⟨j, hj, hd⟩)
  · intro t p hp
    rw [hval t] at hp
    by_cases ht : t = d
    · subst ht
      rw [if_pos rfl] at hp
      rcases List.mem_append.mp hp with h | h
      · exact Or.inl h
      · rw [List.mem_singleton] at h
        subst h
        exact Or.inr ⟨hj, hd⟩
    · rw [if_neg ht] at hp
      exact Or.inl hp
  · intro E h s hs hsE
    obtain ⟨h1, h2⟩ := h s hs hsE
    refine ⟨(hkeys s).mpr (Or.inl h1), ?_⟩
    intro t ht
    rw [hval t]
    by_cases htd : t = d
    · subst htd
      simp [h2 t ht]
    · simpa [htd] using h2 t ht

/-- The dependency loop of `_fill_parental_map`, generically over the
recursive call `f` at one less fuel. -/
theorem fillDeps_spec (g : Graph) (f : ℕ → Graph × List ℕ → Option (Graph × List ℕ))
    (hf : ∀ j pm v pm' v', f j (pm, v) = some (pm', v') →
      PMEvolves g pm v pm' v' ∧ (j ∈ gkeys g → j ∈ v')) (j : ℕ)
    (hj : j ∈ gkeys g) :
    ∀ (ds : List ℕ) (pm : Graph) (v : List ℕ) (pm' : Graph) (v' : List ℕ),
      fillDeps f j ds (pm, v) = some (pm', v') →
      (∀ d ∈ ds, d ∈ aval g j) →
      PMEvolves g pm v pm' v' ∧ ∀ d ∈ ds, j ∈ aval pm' d := by
  intro ds
  induction ds with
  | nil =>
    intro pm v pm' v' h _
    cases h
    exact ⟨PMEvolves.rfl g _ _, by simp⟩
  | cons d ds ih =>
    intro pm v pm' v' h hds
    rw [fillDeps] at h
    cases hcall : f d (pmAppend (pmAddKey pm d) d j, v) with
    | none => rw [hcall] at h; cases h
    | some st =>
      obtain ⟨pm₃, v₃⟩ := st
      rw [hcall] at h
      have hd : d ∈ aval g j := hds d (List.mem_cons_self _ _)
      have e₁ := pmEvolves_addAppend g pm v hj hd
      obtain ⟨e₂, _⟩ := hf d _ v pm₃ v₃ hcall
      obtain ⟨e₃, happ⟩ := ih pm₃ v₃ pm' v' h
        fun d' hd' => hds d' (List.mem_cons_of_mem _ hd')
      refine ⟨(e₁.trans e₂).trans e₃, ?_⟩
      intro d' hd'
      rcases List.mem_cons.mp hd' with rfl | hd'
      · have hjd : j ∈ aval (pmAppend (pmAddKey pm d') d' j) d' := by
          unfold aval
          rw [alookup_pmAppend_self, alookup_pmAddKey_self]
          simp
        exact e₃.valMono d' j (e₂.valMono d' j hjd)
      · exact happ d' hd'

/-- The main postcondition of one completed `_fill_parental_map` call. -/
theorem fillPM_spec (g : Graph) :
    ∀ (fuel j : ℕ) (pm : Graph) (v : List ℕ) (pm' : Graph) (v' : List ℕ),
      fillPM g fuel j (pm, v) = some (pm', v') →
      PMEvolves g pm v pm' v' ∧ (j ∈ gkeys g → j ∈ v') := by
  intro fuel
  induction fuel with
  | zero => intro j pm v pm' v' h; cases h
  | succ fuel ih =>
    intro j pm v pm' v' h
    rw [fillPM] at h
    cases halk : alookup g j with
    | none =>
      rw [halk] at h
      cases h
      refine ⟨PMEvolves.rfl g _ _, fun hj => ?_⟩
      rw [← alookup_isSome_iff, halk] at hj
      cases hj
    | some deps =>
      rw [halk] at h
      replace h : (if j ∈ v then some (pm, v)
          else fillDeps (fillPM g fuel) j deps (pmAddKey pm j, j :: v)) =
          some (pm', v') := h
      have hj : j ∈ gkeys g := by rw [← alookup_isSome_iff, halk]; rfl
      by_cases hv : j ∈ v
      · rw [if_pos hv] at h
        cases h
        exact ⟨PMEvolves.rfl g _ _, fun _ => hv⟩
      · rw [if_neg hv] at h
        obtain ⟨e, happ⟩ := fillDeps_spec g (fillPM g fuel)
          (fun j' pm v pm' v' => ih j' pm v pm' v') j hj deps
          (pmAddKey pm j) (j :: v) pm' v' h
          (fun d hd => by rwa [aval_eq_of_alookup halk])
        have hjv' : j ∈ v' := e.vMono j (List.mem_cons_self _ _)
        have hkeysAdd : ∀ t, t ∈ gkeys pm → t ∈ gkeys (pmAddKey pm j) :=
          fun t ht => (mem_gkeys_pmAddKey pm j t).mpr (Or.inl ht)
        refine ⟨⟨?_, ?_, ?_, ?_, ?_, ?_, ?_⟩, fun _ => hjv'⟩
        · exact fun t ht => e.keysMono t (hkeysAdd t ht)
        · intro t p hp
          exact e.valMono t p (by rwa [aval_pmAddKey])
        · intro t ht
          rcases e.keysSound t ht with h' | h'
          · rcases (mem_gkeys_pmAddKey pm j t).mp h' with h'' | rfl
            · exact Or.inl h''
            · exact Or.inr (Or.inl hj)
          · exact Or.inr h'
        · intro t p hp
          rcases e.valSound t p hp with h' | h'
          · rw [aval_pmAddKey] at h'
            exact Or.inl h'
          · exact Or.inr h'
        · exact fun x hx => e.vMono x (List.mem_cons_of_mem _ hx)
        · intro x hx
          rcases e.vSound x hx with h' | h'
          · rcases List.mem_cons.mp h' with rfl | h''
            · exact Or.inr hj
            · exact Or.inl h''
          · exact Or.inr h'
        · intro E hE s hs hsE
          have hE' : ∀ s ∈ j :: v, s ∉ j :: E → PMDone g (pmAddKey pm j) s := by
            intro s hs hsE'
            rcases List.mem_cons.mp hs with rfl | hs
            · exact absurd (List.mem_cons_self _ _) hsE'
            · obtain ⟨d1, d2⟩ := hE s hs fun hmem => hsE' (List.mem_cons_of_mem _ hmem)
              exact ⟨hkeysAdd s d1, fun t ht => by
                rw [aval_pmAddKey]
                exact d2 t ht⟩
          have hdone' := e.done (j :: E) hE'
          by_cases hsj : s = j
          · subst hsj
            refine ⟨e.keysMono s ((mem_gkeys_pmAddKey pm s s).mpr (Or.inr rfl)), ?_⟩
            intro t ht
            exact happ t (by rwa [aval_eq_of_alookup halk] at ht)
          · exact hdone' s hs fun hmem => by
              rcases List.mem_cons.mp hmem with h' | h'
              · exact hsj h'
              · exact hsE h'

/-- The top loop of `_build_parental_map`. -/
theorem fillAll_spec (g : Graph) :
    ∀ (ks : List ℕ) (fuel : ℕ) (pm : Graph) (v : List ℕ) (pm' : Graph) (v' : List ℕ),
      fillAll g fuel ks (pm, v) = some (pm', v') →
      PMEvolves g pm v pm' v' ∧ ∀ k ∈ ks, k ∈ gkeys g → k ∈ v' := by
  intro ks
  induction ks with
  | nil =>
    intro fuel pm v pm' v' h
    cases h
    exact ⟨PMEvolves.rfl g _ _, by simp⟩
  | cons k ks ih =>
    intro fuel pm v pm' v' h
    rw [fillAll] at h
    cases hk : fillPM g fuel k (pm, v) with
    | none => rw [hk] at h; cases h
    | some st =>
      obtain ⟨pm₁, v₁⟩ := st
      rw [hk] at h
      obtain ⟨e₁, hvis₁⟩ := fillPM_spec g fuel k pm v pm₁ v₁ hk
      obtain ⟨e₂, hvis₂⟩ := ih fuel pm₁ v₁ pm' v' h
      refine ⟨e₁.trans e₂, ?_⟩
      intro k' hk' hkey
      rcases List.mem_cons.mp hk' with rfl | hk'
      · exact e₂.vMono k' (hvis₁ hkey)
      · exact hvis₂ k' hk' hkey

theorem mem_gkeys_of_mem_aval {pm : Graph} {t p : ℕ} (h : p ∈ aval pm t) :
    t ∈ gkeys pm := by
  rcases (mem_aval_iff pm t p).mp h with ⟨l, hl, _⟩
  rw [← alookup_isSome_iff, hl]
  rfl

/-- The parent lists of the built parental map record exactly the edges of
the job graph: `p ∈ parental_map[t]` iff `p` is a key of the graph listing
`t` as a dependency. -/
theorem buildPM_val {g pm : Graph} (hb : buildParentalMap g = some pm) :
    ∀ t p, p ∈ aval pm t ↔ p ∈ gkeys g ∧ t ∈ aval g p := by
  unfold buildParentalMap at hb
  cases hfill : fillAll g (g.length + 2) (gkeys g) ([], []) with
  | none => rw [hfill] at hb; cases hb
  | some st =>
    obtain ⟨pm₀, v₀⟩ := st
    rw [hfill] at hb
    cases hb
    obtain ⟨e, hvis⟩ := fillAll_spec g (gkeys g) (g.length + 2) [] [] pm₀ v₀ hfill
    intro t p
    constructor
    · intro hp
      rcases e.valSound t p hp with h' | h'
      · rw [show aval ([] : Graph) t = [] from rfl] at h'
        cases h'
      · exact h'
    · rintro ⟨hp, ht⟩
      have hpv : p ∈ v₀ := hvis p hp hp
      have hdone := e.done [] (by intro s hs _; cases hs) p hpv (by simp)
      exact hdone.2 t ht

/-- The keys of the built parental map are exactly the nodes of the graph:
its keys plus every node appearing in some dependency list. -/
theorem buildPM_keys {g pm : Graph} (hb : buildParentalMap g = some pm) :
    ∀ t, t ∈ gkeys pm ↔ t ∈ gkeys g ∨ ∃ s, s ∈ gkeys g ∧ t ∈ aval g s := by
  have hval := buildPM_val hb
  unfold buildParentalMap at hb
  cases hfill : fillAll g (g.length + 2) (gkeys g) ([], []) with
  | none => rw [hfill] at hb; cases hb
  | some st =>
    obtain ⟨pm₀, v₀⟩ := st
    rw [hfill] at hb
    cases hb
    obtain ⟨e, hvis⟩ := fillAll_spec g (gkeys g) (g.length + 2) [] [] pm₀ v₀ hfill
    intro t
    constructor
    · intro ht
      rcases e.keysSound t ht with h' | h'
      · cases h'
      · exact h'
    · rintro (ht | ⟨s, hs, hts⟩)
      · have htv : t ∈ v₀ := hvis t ht ht
        exact (e.done [] (by intro s hs _; cases hs) t htv (by simp)).1
      · exact mem_gkeys_of_mem_aval ((hval t s).mpr ⟨hs, hts⟩)

/-! ### Fuel sufficiency for `_build_parental_map` -/

theorem fillDeps_isSome (g : Graph) (fuel : ℕ)
    (f : ℕ → Graph × List ℕ → Option (Graph × List ℕ))
    (hfmono : ∀ j pm v pm' v', f j (pm, v) = some (pm', v') → ∀ x ∈ v, x ∈ v')
    (hfsome : ∀ j pm v, unvis g v + 2 ≤ fuel → (f j (pm, v)).isSome) :
    ∀ (ds : List ℕ) (j : ℕ) (pm : Graph) (v : List ℕ), unvis g v + 2 ≤ fuel →
      (fillDeps f j ds (pm, v)).isSome := by
  intro ds
  induction ds with
  | nil => intro j pm v _; rfl
  | cons d ds ih =>
    intro j pm v hle
    rw [fillDeps]
    cases hcall : f d (pmAppend (pmAddKey pm d) d j, v) with
    | none =>
      have := hfsome d (pmAppend (pmAddKey pm d) d j) v hle
      rw [hcall] at this
      cases this
    | some st =>
      obtain ⟨pm₃, v₃⟩ := st
      have hm := hfmono d _ v pm₃ v₃ hcall
      have : unvis g v₃ ≤ unvis g v := unvis_le_of_subset g hm
      exact ih j pm₃ v₃ (by omega)

theorem fillPM_isSome (g : Graph) :
    ∀ (fuel j : ℕ) (pm : Graph) (v : List ℕ), unvis g v + 2 ≤ fuel →
      (fillPM g fuel j (pm, v)).isSome := by
  intro fuel
  induction fuel with
  | zero => intro j pm v hle; omega
  | succ fuel ih =>
    intro j pm v hle
    rw [fillPM]
    cases halk : alookup g j with
    | none => rfl
    | some deps =>
      show (if j ∈ v then some (pm, v)
        else fillDeps (fillPM g fuel) j deps (pmAddKey pm j, j :: v)).isSome = true
      by_cases hv : j ∈ v
      · rw [if_pos hv]; rfl
      · rw [if_neg hv]
        have hj : j ∈ gkeys g := by rw [← alookup_isSome_iff, halk]; rfl
        have hlt := unvis_cons_lt g hj hv
        exact fillDeps_isSome g fuel (fillPM g fuel)
          (fun j' pm v pm' v' hc => (fillPM_spec g fuel j' pm v pm' v' hc).1.vMono)
          (fun j' pm v hle' => ih j' pm v hle')
          deps j (pmAddKey pm j) (j :: v) (by omega)

theorem fillAll_isSome (g : Graph) :
    ∀ (ks : List ℕ) (fuel : ℕ) (pm : Graph) (v : List ℕ), unvis g v + 2 ≤ fuel →
      (fillAll g fuel ks (pm, v)).isSome := by
  intro ks
  induction ks with
  | nil => intro fuel pm v _; rfl
  | cons k ks ih =>
    intro fuel pm v hle
    rw [fillAll]
    cases hk : fillPM g fuel k (pm, v) with
    | none =>
      have := fillPM_isSome g fuel k pm v hle
      rw [hk] at this
      cases this
    | some st =>
      obtain ⟨pm₁, v₁⟩ := st
      have hm := (fillPM_spec g fuel k pm v pm₁ v₁ hk).1.vMono
      have : unvis g v₁ ≤ unvis g v := unvis_le_of_subset g hm
      exact ih fuel pm₁ v₁ (by omega)

theorem buildParentalMap_isSome (g : Graph) : (buildParentalMap g).isSome := by
  unfold buildParentalMap
  cases hfill : fillAll g (g.length + 2) (gkeys g) ([], []) with
  | none =>
    have : (fillAll g (g.length + 2) (gkeys g) ([], [])).isSome := by
      apply fillAll_isSome
      have h1 : (gkeys g).toFinset.card ≤ (gkeys g).length := List.toFinset_card_le _
      have h2 : (gkeys g).length = g.length := by simp [gkeys]
      unfold unvis
      simp only [List.toFinset_nil, Finset.sdiff_empty]
      omega
    rw [hfill] at this
    cases this
  | some st => rfl

/-! ## Invariants of `call_on_graph_nodes`

`PRel pm a b` is one step of the traversal's recursion: `b` is a parent of
`a` in the parental map.  The basic postcondition (`VisitNodeBasic`) of one
helper call records the freshly output segment `δ`: it is duplicate-free,
consists of previously unvisited nodes, extends `visited` exactly, contains
the walked node, and only contains nodes reachable from it along parent
edges.  The ordering postcondition (`VisitNodeOrder`), which holds when the
parent relation is acyclic, states that every parent of a freshly output
node was output before it or had been visited before the call. -/

/-- `b ∈ parental_map[a]`: the traversal step relation. -/
def PRel (pm : Graph) (a b : ℕ) : Prop := b ∈ aval pm a

/-- Basic postcondition of a node-visiting function (the helper at some
fuel). -/
def VisitNodeBasic (pm : Graph)
    (f : ℕ → List ℕ × List ℕ → Option (List ℕ × List ℕ)) : Prop :=
  ∀ j v out v' out', f j (v, out) = some (v', out') →
    ∃ δ, out' = out ++ δ ∧ δ.Nodup ∧ (∀ x ∈ δ, x ∉ v) ∧
      (∀ x, x ∈ v' ↔ x ∈ v ∨ x ∈ δ) ∧ j ∈ v' ∧
      (∀ x ∈ δ, x = j ∨ Relation.TransGen (PRel pm) j x)

/-- Ordering postcondition of a node-visiting function. -/
def VisitNodeOrder (pm : Graph)
    (f : ℕ → List ℕ × List ℕ → Option (List ℕ × List ℕ)) : Prop :=
  ∀ j v out v' out', f j (v, out) = some (v', out') →
    ∀ d₁ x d₂, out' = out ++ d₁ ++ x :: d₂ →
      ∀ p ∈ aval pm x, p ∈ out ++ d₁ ∨ p ∈ v

theorem visitParents_basic (pm : Graph)
    (f : ℕ → List ℕ × List ℕ → Option (List ℕ × List ℕ))
    (hf : VisitNodeBasic pm f) :
    ∀ (ps v out v' out' : _), visitParents f ps (v, out) = some (v', out') →
      ∃ δ, out' = out ++ δ ∧ δ.Nodup ∧ (∀ x ∈ δ, x ∉ v) ∧
        (∀ x, x ∈ v' ↔ x ∈ v ∨ x ∈ δ) ∧ (∀ p ∈ ps, p ∈ v') ∧
        (∀ x ∈ δ, ∃ p ∈ ps, x = p ∨ Relation.TransGen (PRel pm) p x) := by
  intro ps
  induction ps with
  | nil =>
    intro v out v' out' h
    cases h
    exact ⟨[], by simp⟩
  | cons p ps ih =>
    intro v out v' out' h
    rw [visitParents] at h
    cases hc : f p (v, out) with
    | none => rw [hc] at h; cases h
    | some st =>
      obtain ⟨v₁, o₁⟩ := st
      rw [hc] at h
      obtain ⟨δ₁, rfl, hnd₁, hfresh₁, hiff₁, hpin, hreach₁⟩ := hf p v out v₁ o₁ hc
      obtain ⟨δ₂, rfl, hnd₂, hfresh₂, hiff₂, hps, hreach₂⟩ := ih v₁ _ v' out' h
      refine ⟨δ₁ ++ δ₂, by simp, ?_, ?_, ?_, ?_, ?_⟩
      · refine hnd₁.append hnd₂ ?_
        intro a ha₁ ha₂
        exact hfresh₂ a ha₂ ((hiff₁ a).mpr (Or.inr ha₁))
      · intro x hx
        rcases List.mem_append.mp hx with hx | hx
        · exact hfresh₁ x hx
        · exact fun hxv => hfresh₂ x hx ((hiff₁ x).mpr (Or.inl hxv))
      · intro x
        rw [hiff₂ x, hiff₁ x, List.mem_append]
        tauto
      · intro q hq
        rcases List.mem_cons.mp hq with rfl | hq
        · exact (hiff₂ q).mpr (Or.inl hpin)
        · exact hps q hq
      · intro x hx
        rcases List.mem_append.mp hx with hx | hx
        · rcases hreach₁ x hx with h' | h'
          · exact ⟨p, List.mem_cons_self _ _, Or.inl h'⟩
          · exact ⟨p, List.mem_cons_self _ _, Or.inr h'⟩
        · obtain ⟨q, hq, h'⟩ := hreach₂ x hx
          exact ⟨q, List.mem_cons_of_mem _ hq, h'⟩

theorem visitNode_basic (pm : Graph) :
    ∀ fuel, VisitNodeBasic pm (visitNode pm fuel) := by
  intro fuel
  induction fuel with
  | zero => intro j v out v' out' h; cases h
  | succ fuel ih =>
    intro j v out v' out' h
    rw [visitNode] at h
    by_cases hv : j ∈ v
    · rw [if_pos hv] at h
      cases h
      exact ⟨[], by simp, by simp, by simp, by simp, hv, by simp⟩
    · rw [if_neg hv] at h
      cases halk : alookup pm j with
      | none => rw [halk] at h; cases h
      | some ps =>
        rw [halk] at h
        replace h : Option.map (fun st => (st.1, st.2 ++ [j]))
            (visitParents (visitNode pm fuel) ps (j :: v, out)) =
            some (v', out') := h
        cases hp : visitParents (visitNode pm fuel) ps (j :: v, out) with
        | none => rw [hp] at h; cases h
        | some st =>
          obtain ⟨v₂, o₂⟩ := st
          rw [hp] at h
          obtain ⟨δ₂, rfl, hnd₂, hfresh₂, hiff₂, hps, hreach₂⟩ :=
            visitParents_basic pm (visitNode pm fuel) ih ps (j :: v) out v₂ o₂ hp
          cases h
          refine ⟨δ₂ ++ [j], by simp, ?_, ?_, ?_, ?_, ?_⟩
          · have hjn : j ∉ δ₂ := fun hj => hfresh₂ j hj (List.mem_cons_self _ _)
            simp [List.nodup_append, hnd₂, hjn]
          · intro x hx
            rcases List.mem_append.mp hx with hx | hx
            · exact fun hxv => hfresh₂ x hx (List.mem_cons_of_mem _ hxv)
            · rw [List.mem_singleton] at hx
              subst hx
              exact hv
          · intro x
            rw [hiff₂ x]
            simp only [List.mem_cons, List.mem_append, List.mem_singleton]
            tauto
          · exact (hiff₂ j).mpr (Or.inl (List.mem_cons_self _ _))
          · intro x hx
            rcases List.mem_append.mp hx with hx | hx
            · obtain ⟨p, hpin, h'⟩ := hreach₂ x hx
              have hstep : PRel pm j p := by
                show p ∈ aval pm j
                rw [aval_eq_of_alookup halk]
                exact hpin
              rcases h' with rfl | h'
              · exact Or.inr (Relation.TransGen.single hstep)
              · exact Or.inr (Relation.TransGen.head hstep h')
            · rw [List.mem_singleton] at hx
              exact Or.inl hx

theorem visitParents_order (pm : Graph)
    (f : ℕ → List ℕ × List ℕ → Option (List ℕ × List ℕ))
    (hbasic : VisitNodeBasic pm f) (horder : VisitNodeOrder pm f) :
    ∀ (ps v out v' out' : _), visitParents f ps (v, out) = some (v', out') →
      ∀ d₁ x d₂, out' = out ++ d₁ ++ x :: d₂ →
        ∀ p ∈ aval pm x, p ∈ out ++ d₁ ∨ p ∈ v := by
  intro ps
  induction ps with
  | nil =>
    intro v out v' out' h d₁ x d₂ hdec p hp
    cases h
    exfalso
    have := congrArg List.length hdec
    simp only [List.length_append, List.length_cons] at this
    omega
  | cons p₀ ps ih =>
    intro v out v' out' h d₁ x d₂ hdec p hp
    rw [visitParents] at h
    cases hc : f p₀ (v, out) with
    | none => rw [hc] at h; cases h
    | some st =>
      obtain ⟨v₁, o₁⟩ := st
      rw [hc] at h
      obtain ⟨δ₁, ho₁, _, _, hiff₁, _, _⟩ := hbasic p₀ v out v₁ o₁ hc
      obtain ⟨δ₂, ho₂, _, _, _, _, _⟩ :=
        visitParents_basic pm f hbasic ps v₁ o₁ v' out' h
      have hcancel : d₁ ++ x :: d₂ = δ₁ ++ δ₂ := by
        have h2 : out ++ (d₁ ++ x :: d₂) = out ++ (δ₁ ++ δ₂) := by
          rw [← List.append_assoc, ← hdec, ho₂, ho₁, List.append_assoc]
        exact List.append_cancel_left h2
      rcases List.append_eq_append_iff.mp hcancel with ⟨a, ha₁, ha₂⟩ | ⟨c, hc₁, hc₂⟩
      · cases a with
        | nil =>
          simp only [List.append_nil] at ha₁
          simp only [List.nil_append] at ha₂
          rcases ih v₁ o₁ v' out' h [] x d₂
              (by rw [ho₂, ← ha₂]; simp) p hp with h' | h'
          · left
            simp only [List.append_nil] at h'
            rw [ho₁, ha₁] at h'
            exact h'
          · rcases (hiff₁ p).mp h' with h'' | h''
            · exact Or.inr h''
            · exact Or.inl (List.mem_append_right _ (ha₁ ▸ h''))
        | cons y a =>
          injection ha₂ with hxy hd₂
          subst hxy
          exact horder p₀ v out v₁ o₁ hc d₁ x a (by rw [ho₁, ha₁]; simp) p hp
      · rcases ih v₁ o₁ v' out' h c x d₂
            (by rw [ho₂, hc₂, ho₁]; simp) p hp with h' | h'
        · left
          rw [ho₁] at h'
          rw [hc₁]
          simpa using h'
        · rcases (hiff₁ p).mp h' with h'' | h''
          · exact Or.inr h''
          · left
            rw [hc₁]
            rw [← List.append_assoc]
            exact List.mem_append_left _ (List.mem_append_right _ h'')

theorem visitNode_order (pm : Graph)
    (hA : ∀ n, ¬ Relation.TransGen (PRel pm) n n) :
    ∀ fuel, VisitNodeOrder pm (visitNode pm fuel) := by
  intro fuel
  induction fuel with
  | zero => intro j v out v' out' h; cases h
  | succ fuel ih =>
    intro j v out v' out' h d₁ x d₂ hdec p hp
    rw [visitNode] at h
    by_cases hv : j ∈ v
    · rw [if_pos hv] at h
      cases h
      exfalso
      have := congrArg List.length hdec
      simp only [List.length_append, List.length_cons] at this
      omega
    · rw [if_neg hv] at h
      cases halk : alookup pm j with
      | none => rw [halk] at h; cases h
      | some ps =>
        rw [halk] at h
        replace h : Option.map (fun st => (st.1, st.2 ++ [j]))
            (visitParents (visitNode pm fuel) ps (j :: v, out)) =
            some (v', out') := h
        cases hpcall : visitParents (visitNode pm fuel) ps (j :: v, out) with
        | none => rw [hpcall] at h; cases h
        | some st =>
          obtain ⟨v₂, o₂⟩ := st
          rw [hpcall] at h
          replace h : some (v₂, o₂ ++ [j]) = some (v', out') := h
          have hv2 : v₂ = v' := by
            injection h with h'
            exact congrArg Prod.fst h'
          have hout : out' = o₂ ++ [j] := by
            injection h with h'
            exact (congrArg Prod.snd h').symm
          subst hv2
          subst hout
          obtain ⟨δ₂, ho₂, hnd₂, hfresh₂, hiff₂, hps, hreach₂⟩ :=
            visitParents_basic pm _ (visitNode_basic pm fuel) ps (j :: v) out v₂ o₂
              hpcall
          have hxj_case : o₂ = out ++ d₁ → x = j → p ∈ out ++ d₁ ∨ p ∈ v := by
            intro hoeq hxj
            subst hxj
            have hpps : p ∈ ps := by
              rw [show aval pm x = ps from aval_eq_of_alookup halk] at hp
              exact hp
            rcases (hiff₂ p).mp (hps p hpps) with hpjv | hpδ
            · rcases List.mem_cons.mp hpjv with rfl | hpv'
              · exact absurd (Relation.TransGen.single (show PRel pm p p from hp))
                  (hA p)
              · exact Or.inr hpv'
            · left
              rw [← hoeq, ho₂]
              exact List.mem_append_right _ hpδ
          rcases List.append_eq_append_iff.mp hdec.symm with ⟨a, ha₁, ha₂⟩ | ⟨c, hc₁, hc₂⟩
          · cases a with
            | nil =>
              simp only [List.append_nil] at ha₁
              simp only [List.nil_append] at ha₂
              injection ha₂ with hxj hd₂nil
              exact hxj_case ha₁ hxj
            | cons y a =>
              injection ha₂ with hxy hd₂
              subst hxy
              have hres := visitParents_order pm _ (visitNode_basic pm fuel) ih
                ps (j :: v) out v₂ o₂ hpcall d₁ x a ha₁ p hp
              rcases hres with h' | h'
              · exact Or.inl h'
              · rcases List.mem_cons.mp h' with rfl | h''
                · exfalso
                  have hxδ : x ∈ δ₂ := by
                    have hδeq : δ₂ = d₁ ++ x :: a := by
                      have h2 : out ++ δ₂ = out ++ (d₁ ++ x :: a) := by
                        rw [← ho₂, ha₁]
                        simp
                      exact List.append_cancel_left h2
                    rw [hδeq]
                    simp
                  obtain ⟨q, hqps, hq⟩ := hreach₂ x hxδ
                  have hjq : PRel pm p q := by
                    show q ∈ aval pm p
                    rw [show aval pm p = ps from aval_eq_of_alookup halk]
                    exact hqps
                  have hxjstep : PRel pm x p := hp
                  rcases hq with rfl | htg
                  · -- `x` is itself a parent of the walked node: a 2-cycle
                    exact hA p (Relation.TransGen.head hjq
                      (Relation.TransGen.single hxjstep))
                  · -- the parent cycle through q and x
                    exact hA p (Relation.TransGen.head hjq (htg.tail hxjstep))
                · exact Or.inr h''
          · cases c with
            | nil =>
              simp only [List.append_nil] at hc₁
              simp only [List.nil_append] at hc₂
              injection hc₂ with hxj hd₂nil
              exact hxj_case hc₁.symm hxj.symm
            | cons y c =>
              injection hc₂ with h1 h2
              exfalso
              simp at h2

/-- The top loop of `call_on_graph_nodes` is the same fold as the parents
loop, over the parental map's keys. -/
theorem visitAll_eq_visitParents (pm : Graph) (fuel : ℕ) :
    ∀ (ks : List ℕ) (st : List ℕ × List ℕ),
      visitAll pm fuel ks st = visitParents (visitNode pm fuel) ks st := by
  intro ks
  induction ks with
  | nil => intro st; rfl
  | cons k ks ih =>
    intro st
    rw [visitAll, visitParents]
    cases visitNode pm fuel k st with
    | none => rfl
    | some st' => exact ih st'

/-- Every parent recorded in the map is itself a key of the map (true of the
built parental map; required for the traversal to be `KeyError`-free). -/
def KeysClosed (pm : Graph) : Prop :=
  ∀ t p, p ∈ aval pm t → p ∈ gkeys pm

theorem visitParents_isSome (pm : Graph) (B : ℕ)
    (f : ℕ → List ℕ × List ℕ → Option (List ℕ × List ℕ))
    (hfmono : ∀ j v out v' out', f j (v, out) = some (v', out') → ∀ y ∈ v, y ∈ v')
    (hfsome : ∀ j v out, j ∈ gkeys pm → unvis pm v < B → (f j (v, out)).isSome) :
    ∀ (ps v out : _), (∀ p ∈ ps, p ∈ gkeys pm) → unvis pm v < B →
      (visitParents f ps (v, out)).isSome := by
  intro ps
  induction ps with
  | nil => intro v out _ _; rfl
  | cons p ps ih =>
    intro v out hmem hlt
    rw [visitParents]
    cases hc : f p (v, out) with
    | none =>
      have := hfsome p v out (hmem p (List.mem_cons_self _ _)) hlt
      rw [hc] at this
      cases this
    | some st =>
      obtain ⟨v₁, o₁⟩ := st
      have hm := hfmono p v out v₁ o₁ hc
      have : unvis pm v₁ ≤ unvis pm v := unvis_le_of_subset pm hm
      exact ih v₁ o₁ (fun q hq => hmem q (List.mem_cons_of_mem _ hq)) (by omega)

theorem visitNode_vMono (pm : Graph) (fuel : ℕ) :
    ∀ (j v out v' out' : _), visitNode pm fuel j (v, out) = some (v', out') →
      ∀ y ∈ v, y ∈ v' := by
  intro j v out v' out' hc y hy
  obtain ⟨δ, _, _, _, hiff, _, _⟩ := visitNode_basic pm fuel j v out v' out' hc
  exact (hiff y).mpr (Or.inl hy)

theorem visitNode_isSome (pm : Graph) (hclosed : KeysClosed pm) :
    ∀ (fuel j v out : _), j ∈ gkeys pm → unvis pm v < fuel →
      (visitNode pm fuel j (v, out)).isSome := by
  intro fuel
  induction fuel with
  | zero => intro j v out _ hlt; omega
  | succ fuel ih =>
    intro j v out hj hlt
    rw [visitNode]
    by_cases hv : j ∈ v
    · rw [if_pos hv]; rfl
    · rw [if_neg hv]
      obtain ⟨ps, halk⟩ := Option.isSome_iff_exists.mp ((alookup_isSome_iff pm j).mpr hj)
      rw [halk]
      show (Option.map _ (visitParents (visitNode pm fuel) ps (j :: v, out))).isSome = true
      rw [Option.isSome_map']
      have hdrop := unvis_cons_lt pm hj hv
      exact visitParents_isSome pm fuel (visitNode pm fuel)
        (visitNode_vMono pm fuel)
        (fun j' v' out' hj' hlt' => ih j' v' out' hj' hlt')
        ps (j :: v) out
        (fun p hp => hclosed j p (by rwa [aval_eq_of_alookup halk])) (by omega)

theorem callOnGraphNodes_isSome (pm : Graph) (hclosed : KeysClosed pm) :
    (callOnGraphNodes pm).isSome := by
  unfold callOnGraphNodes
  rw [Option.isSome_map']
  rw [visitAll_eq_visitParents]
  apply visitParents_isSome pm (pm.length + 1) (visitNode pm (pm.length + 1))
    (visitNode_vMono pm (pm.length + 1))
    (fun j' v' out' hj' hlt' => visitNode_isSome pm hclosed _ j' v' out' hj' hlt')
    (gkeys pm) [] [] (fun p hp => hp)
  have h1 : (gkeys pm).toFinset.card ≤ (gkeys pm).length := List.toFinset_card_le _
  have h2 : (gkeys pm).length = pm.length := by simp [gkeys]
  unfold unvis
  simp only [List.toFinset_nil, Finset.sdiff_empty]
  omega

theorem alookup_mem {g : Graph} {j : ℕ} {l : List ℕ}
    (h : alookup g j = some l) : (j, l) ∈ g := by
  induction g with
  | nil => cases h
  | cons e g ih =>
    obtain ⟨k, l'⟩ := e
    rw [alookup_cons] at h
    by_cases hk : k = j
    · rw [if_pos hk] at h
      cases h
      subst hk
      exact List.mem_cons_self _ _
    · rw [if_neg hk] at h
      exact List.mem_cons_of_mem _ (ih h)

theorem alookup_of_mem_nodup {g : Graph} {j : ℕ} {l : List ℕ}
    (hnd : (gkeys g).Nodup) (h : (j, l) ∈ g) : alookup g j = some l := by
  induction g with
  | nil => cases h
  | cons e g ih =>
    obtain ⟨k, l'⟩ := e
    rw [alookup_cons]
    have hnd2 : (k :: gkeys g).Nodup := hnd
    rcases List.mem_cons.mp h with heq | hmem
    · cases heq
      rw [if_pos rfl]
    · have hk : k ≠ j := by
        intro hk
        subst hk
        exact (List.nodup_cons.mp hnd2).1 (List.mem_map_of_mem Prod.fst hmem)
      rw [if_neg hk]
      exact ih (List.nodup_cons.mp hnd2).2 hmem

/-- The built parental map never maps a node to a parent outside its own key
set, so the traversal never raises `KeyError`. -/
theorem buildPM_keysClosed {g pm : Graph} (hb : buildParentalMap g = some pm) :
    KeysClosed pm := fun t p hp =>
  (buildPM_keys hb p).mpr (Or.inl ((buildPM_val hb t p).mp hp).1)

/-- `find_sequential_run_order` (and `call_on_graph_nodes`) terminates
normally on every job graph: the recursion depth is bounded by the number of
nodes. -/
theorem findSeqOrder_isSome (g : Graph) : (findSeqOrder g).isSome := by
  unfold findSeqOrder
  cases hb : buildParentalMap g with
  | none =>
    have := buildParentalMap_isSome g
    rw [hb] at this
    cases this
  | some pm =>
    rw [Option.some_bind]
    exact callOnGraphNodes_isSome pm (buildPM_keysClosed hb)

/-- Parents-first: in the sequential order of a validated (acyclic) graph,
every node that lists `x` as a dependency target appears strictly before
`x`. -/
theorem findSeqOrder_parents_first {g : Graph} {out : List ℕ}
    (hA : Acyclic g) (h : findSeqOrder g = some out) :
    ∀ (d₁ : List ℕ) (x : ℕ) (d₂ : List ℕ), out = d₁ ++ x :: d₂ →
      ∀ p, p ∈ gkeys g → x ∈ aval g p → p ∈ d₁ := by
  unfold findSeqOrder at h
  cases hb : buildParentalMap g with
  | none => rw [hb] at h; cases h
  | some pm =>
    rw [hb, Option.some_bind] at h
    have hval := buildPM_val hb
    have hApm : ∀ n, ¬ Relation.TransGen (PRel pm) n n := by
      intro n htg
      apply hA n
      refine Relation.transGen_swap.mp (Relation.TransGen.mono ?_ htg)
      intro a b hab
      exact ((hval a b).mp hab).2
    unfold callOnGraphNodes at h
    cases hva : visitAll pm (pm.length + 1) (gkeys pm) ([], []) with
    | none => rw [hva] at h; cases h
    | some st =>
      obtain ⟨vf, of⟩ := st
      rw [hva] at h
      cases h
      rw [visitAll_eq_visitParents] at hva
      intro d₁ x d₂ hdec p hpk hpe
      have hp_parent : p ∈ aval pm x := (hval x p).mpr ⟨hpk, hpe⟩
      have hres := visitParents_order pm (visitNode pm (pm.length + 1))
        (visitNode_basic pm _) (visitNode_order pm hApm _)
        (gkeys pm) [] [] vf of hva d₁ x d₂ (by simpa using hdec) p hp_parent
      rcases hres with h' | h'
      · simpa using h'
      · cases h'

/-- Exactly-once: the sequential order of any job graph lists each distinct
node of the graph (keys and dependency-list members) exactly once. -/
theorem findSeqOrder_exactly_once {g : Graph} {out : List ℕ}
    (hnd : (gkeys g).Nodup) (h : findSeqOrder g = some out) :
    out.Nodup ∧ ∀ x, x ∈ out ↔ (x ∈ gkeys g ∨ ∃ e ∈ g, x ∈ e.2) := by
  unfold findSeqOrder at h
  cases hb : buildParentalMap g with
  | none => rw [hb] at h; cases h
  | some pm =>
    rw [hb, Option.some_bind] at h
    have hval := buildPM_val hb
    have hkeys := buildPM_keys hb
    have hclosed := buildPM_keysClosed hb
    unfold callOnGraphNodes at h
    cases hva : visitAll pm (pm.length + 1) (gkeys pm) ([], []) with
    | none => rw [hva] at h; cases h
    | some st =>
      obtain ⟨vf, of⟩ := st
      rw [hva] at h
      cases h
      rw [visitAll_eq_visitParents] at hva
      obtain ⟨δ, hofδ, hndδ, _, hiff, hallkeys, hreach⟩ :=
        visitParents_basic pm _ (visitNode_basic pm _) (gkeys pm) [] [] vf of hva
      simp only [List.nil_append] at hofδ
      rw [hofδ]
      have hout_pm : ∀ x, x ∈ δ ↔ x ∈ gkeys pm := by
        intro x
        constructor
        · intro hx
          obtain ⟨k, hk, hrk⟩ := hreach x hx
          rcases hrk with rfl | htg
          · exact hk
          · rcases Relation.TransGen.tail'_iff.mp htg with ⟨b, _, hstep⟩
            exact hclosed b x hstep
        · intro hx
          rcases (hiff x).mp (hallkeys x hx) with h' | h'
          · cases h'
          · exact h'
      refine ⟨hndδ, ?_⟩
      intro x
      rw [hout_pm x, hkeys x]
      constructor
      · rintro (hx | ⟨s, hs, hxs⟩)
        · exact Or.inl hx
        · rcases (mem_aval_iff g s x).mp hxs with ⟨l, hl, hxl⟩
          exact Or.inr ⟨(s, l), alookup_mem hl, hxl⟩
      · rintro (hx | ⟨⟨s, l⟩, hmem, hxl⟩)
        · exact Or.inl hx
        · refine Or.inr ⟨s, ?_, ?_⟩
          · exact List.mem_map_of_mem Prod.fst hmem
          · rw [aval_eq_of_alookup (alookup_of_mem_nodup hnd hmem)]
            exact hxl

/-- **C1.** `call_on_graph_nodes` invokes the consumer on a node only after
it has been invoked on every one of that node's parents (the nodes that list
it as a dependency target), so `find_sequential_run_order` returns a
parents-first order — for every dependency graph accepted by
`JobGraphValidator` (every graph a `Definition` can hold).  In particular,
for the graph `{A: [B,C], B: [D], C: [D]}` (as `0,1,2,3`) the sequential
order places `A` before `B` and `C`, and both before `D`: it is exactly
`[A, B, C, D]`. -/
theorem C1_sequential_order_is_parents_first :
    (∀ (g : Graph) (v₀ out : List ℕ), validateGraph g = .ok v₀ →
      findSeqOrder g = some out →
      ∀ (d₁ : List ℕ) (x : ℕ) (d₂ : List ℕ), out = d₁ ++ x :: d₂ →
        ∀ p, p ∈ gkeys g → x ∈ aval g p → p ∈ d₁) ∧
    findSeqOrder [(0, [1, 2]), (1, [3]), (2, [3])] = some [0, 1, 2, 3] := by
  constructor
  · intro g v₀ out hok h d₁ x d₂ hdec p hpk hpe
    exact findSeqOrder_parents_first (validateGraph_ok_acyclic hok) h
      d₁ x d₂ hdec p hpk hpe
  · rfl

/-- Witness for C1: in the diamond `{0: [1,2], 1: [3], 2: [3]}` the node `2`
(= C) is preceded in the order `[0,1,2,3]` by its parent `0` (= A). -/
theorem C1_witness : (0 : ℕ) ∈ ([0, 1] : List ℕ) :=
  C1_sequential_order_is_parents_first.1 [(0, [1, 2]), (1, [3]), (2, [3])]
    [2, 3, 1, 0] [0, 1, 2, 3] rfl rfl [0, 1] 2 [3] rfl 0 (by decide) (by decide)

/-- **C10.** On every acyclic dependency graph, each invocation of
`call_on_graph_nodes` calls the consumer exactly once per distinct node of
the graph (every key and every node appearing in a dependency list), so
`find_sequential_run_order` returns (totally: the traversal terminates) a
list containing each node exactly once — no duplicates, no omissions — even
when a node is listed as a dependency of several sources. -/
theorem C10_consumer_called_exactly_once_per_node :
    ∀ g : Graph, (gkeys g).Nodup → Acyclic g →
      (findSeqOrder g).isSome ∧
      ∀ out, findSeqOrder g = some out →
        out.Nodup ∧ ∀ x, x ∈ out ↔ (x ∈ gkeys g ∨ ∃ e ∈ g, x ∈ e.2) :=
  fun g hnd _ =>
    ⟨findSeqOrder_isSome g, fun _ h => findSeqOrder_exactly_once hnd h⟩

/-- Witness for C10: the diamond, where node `3` is listed as a dependency
of both `1` and `2` yet appears exactly once. -/
theorem C10_witness :
    (findSeqOrder [(0, [1, 2]), (1, [3]), (2, [3])]).isSome ∧
    ([0, 1, 2, 3] : List ℕ).Nodup ∧
    ((3 : ℕ) ∈ ([0, 1, 2, 3] : List ℕ)) := by
  have H := C10_consumer_called_exactly_once_per_node
    [(0, [1, 2]), (1, [3]), (2, [3])] (by decide)
    (validateGraph_ok_acyclic
      (rfl : validateGraph [(0, [1, 2]), (1, [3]), (2, [3])] = .ok [2, 3, 1, 0]))
  refine ⟨H.1, (H.2 [0, 1, 2, 3] rfl).1, ?_⟩
  exact ((H.2 [0, 1, 2, 3] rfl).2 3).mpr (by decide)

/-! ## C3: list input becomes a strict chain graph -/

theorem dictSet_fresh (d : Graph) (k : ℕ) (val : List ℕ)
    (h : alookup d k = none) : dictSet d k val = d ++ [(k, val)] := by
  unfold dictSet
  rw [h]
  rfl

theorem foldl_dictSet_fresh :
    ∀ (ps : List (ℕ × ℕ)) (acc : Graph), (ps.map Prod.fst).Nodup →
      (∀ p ∈ ps, alookup acc p.1 = none) →
      ps.foldl (fun acc p => dictSet acc p.1 [p.2]) acc =
        acc ++ ps.map (fun p => (p.1, [p.2])) := by
  intro ps
  induction ps with
  | nil => intro acc _ _; simp
  | cons p ps ih =>
    intro acc hnd hfresh
    obtain ⟨k, v⟩ := p
    simp only [List.foldl_cons]
    rw [dictSet_fresh acc k [v] (hfresh (k, v) (List.mem_cons_self _ _)),
      ih (acc ++ [(k, [v])]) (by simpa using hnd.of_cons) ?_]
    · simp
    · intro q hq
      rw [alookup_append, hfresh q (List.mem_cons_of_mem _ hq), Option.none_or,
        alookup_cons, alookup_nil]
      have : k ≠ q.1 := by
        simp only [List.map_cons, List.nodup_cons] at hnd
        exact fun he => hnd.1 (he ▸ List.mem_map_of_mem Prod.fst hq)
      simp [this]

theorem map_fst_zip_sublist :
    ∀ l₁ l₂ : List ℕ, ((l₁.zip l₂).map Prod.fst).Sublist l₁ := by
  intro l₁
  induction l₁ with
  | nil => intro _; simp
  | cons a l₁ ih =>
    intro l₂
    cases l₂ with
    | nil => simp
    | cons b l₂ => simpa using (ih l₂).cons₂ a

/-- For a list of at least two distinct jobs, `_convert_list_to_graph` is
exactly the chain dictionary `{js[i-1]: [js[i]]}`. -/
theorem convertListToGraph_chain (a b : ℕ) (rest : List ℕ)
    (hnd : (a :: b :: rest).Nodup) :
    convertListToGraph (a :: b :: rest) =
      ((a :: b :: rest).zip (b :: rest)).map fun p => (p.1, [p.2]) := by
  show ((a :: b :: rest).zip (b :: rest)).foldl
      (fun acc p => dictSet acc p.1 [p.2]) [] = _
  rw [foldl_dictSet_fresh _ []
    (hnd.sublist (map_fst_zip_sublist (a :: b :: rest) (b :: rest)))
    (fun _ _ => rfl)]
  simp

theorem alookup_chain :
    ∀ js : List ℕ, js.Nodup → ∀ (i : ℕ) (h : i + 1 < js.length),
      alookup ((js.zip js.tail).map fun p => (p.1, [p.2]))
          (js.get ⟨i, by omega⟩) = some [js.get ⟨i + 1, h⟩] := by
  intro js
  induction js with
  | nil => intro _ i h; simp at h
  | cons a tl ih =>
    intro hnd i h
    cases tl with
    | nil => simp at h
    | cons b rest =>
      cases i with
      | zero => simp [alookup_cons]
      | succ i =>
        have hi : i + 1 < (b :: rest).length := by
          simpa [Nat.succ_lt_succ_iff] using h
        have hne : a ≠ (b :: rest).get ⟨i, by omega⟩ := by
          intro he
          exact (List.nodup_cons.mp hnd).1 (he ▸ List.get_mem _ _ _)
        show alookup ((a, [b]) :: ((b :: rest).zip rest).map fun p => (p.1, [p.2]))
            ((b :: rest).get ⟨i, by omega⟩) = some [(b :: rest).get ⟨i + 1, hi⟩]
        rw [alookup_cons, if_neg hne]
        exact ih (List.nodup_cons.mp hnd).2 i hi

/-- **C3.** For every non-empty job list, graph construction produces a strict
linear chain: a single-element list maps the element to an empty dependency
list; for `N > 1` distinct elements the graph is exactly
`{js[i-1]: [js[i]] | i ∈ [1, N)}`, so each element `i-1` maps to exactly the
one-element list `[element i]`; and the sequential order for the chain built
from the three-job list (named `0, 1, 2` as `Workflow._map_to_workflow_jobs`
names them) is exactly that list. -/
theorem C3_list_becomes_strict_chain :
    (∀ x : ℕ, convertListToGraph [x] = [(x, [])]) ∧
    (∀ (a b : ℕ) (rest : List ℕ), (a :: b :: rest).Nodup →
      convertListToGraph (a :: b :: rest) =
        ((a :: b :: rest).zip (b :: rest)).map fun p => (p.1, [p.2])) ∧
    (∀ js : List ℕ, js.Nodup → ∀ (i : ℕ) (h : i + 1 < js.length),
      alookup (convertListToGraph js) (js.get ⟨i, by omega⟩) =
        some [js.get ⟨i + 1, h⟩]) ∧
    findSeqOrder (convertListToGraph [0, 1, 2]) = some [0, 1, 2] := by
  refine ⟨fun _ => rfl, convertListToGraph_chain, ?_, rfl⟩
  intro js hnd i h
  match js, h with
  | a :: b :: rest, h =>
    rw [convertListToGraph_chain a b rest hnd]
    exact alookup_chain (a :: b :: rest) hnd i h

/-- Witness for C3: the singleton `[5]`, and the chain built from
`[10, 20, 30]` looked up at both links. -/
theorem C3_witness :
    convertListToGraph [5] = [(5, [])] ∧
    alookup (convertListToGraph [10, 20, 30]) 10 = some [20] ∧
    alookup (convertListToGraph [10, 20, 30]) 20 = some [30] :=
  ⟨C3_list_becomes_strict_chain.1 5,
   C3_list_becomes_strict_chain.2.2.1 [10, 20, 30] (by decide) 0 (by decide),
   C3_list_becomes_strict_chain.2.2.1 [10, 20, 30] (by decide) 1 (by decide)⟩

end Bigflow

